import Mathlib

/-!
Verification of the lens-relay link-graph subsystem.

Rust strings are modelled as `List Char`; byte offsets are recovered with
`Char.utf8Size`, so operations that Rust performs on UTF-8 byte indices
(`str::len`, `as_bytes`, byte slicing, `replace_range`) are modelled by
byte-counting walks over the character list.  `String::to_lowercase` is
modelled by `Char.toLower` (they agree on ASCII, which is all the folder
and file names under consideration exercise).
-/

set_option maxRecDepth 10000

/-- Rust `&str` / `String`, modelled as its list of characters. -/
abbrev Str := List Char

/-- Byte length of a string (Rust `str::len`). -/
def utf8Len (s : Str) : Nat := (s.map Char.utf8Size).sum

/-- Rust `String::to_lowercase`, restricted to the ASCII mapping. -/
def toLowerStr (s : Str) : Str := s.map Char.toLower

/-- Rust `str::trim` (ASCII whitespace fragment of `char::is_whitespace`). -/
def trimStr (s : Str) : Str :=
  ((s.dropWhile Char.isWhitespace).reverse.dropWhile Char.isWhitespace).reverse

/-- Rust `str::split(sep)`: splits into (possibly empty) segments, as `split` does
(`"".split sep = [""]`, separators at the ends produce empty segments). -/
def splitOnChar (sep : Char) : Str → List Str
  | [] => [[]]
  | c :: cs =>
    if c = sep then [] :: splitOnChar sep cs
    else
      match splitOnChar sep cs with
      | s :: rest => (c :: s) :: rest
      | [] => [[c]]

/-- Rust `[T]::join(sep)` for string segments with a one-character separator. -/
def joinSep (sep : Char) : List Str → Str
  | [] => []
  | [s] => s
  | s :: rest => s ++ sep :: joinSep sep rest

/-- Byte-indexed take (Rust `&s[..n]`): keeps the characters whose encoding fits
entirely inside the first `n` bytes. -/
def takeBytes : Str → Nat → Str
  | _, 0 => []
  | [], _ => []
  | c :: cs, n => if n < c.utf8Size then [] else c :: takeBytes cs (n - c.utf8Size)

/-- Byte-indexed drop (Rust `&s[n..]`): drops the characters covered by the
first `n` bytes. -/
def dropBytes : Str → Nat → Str
  | s, 0 => s
  | [], _ => []
  | c :: cs, n => if n < c.utf8Size then c :: cs else dropBytes cs (n - c.utf8Size)

/-- Whether byte number `n` of the UTF-8 encoding of `s` exists and equals `'-'`
(Rust `s.as_bytes()[n] == b'-'`; a continuation byte of a multi-byte character
can never equal the ASCII hyphen). -/
def byteIsHyphenAt : Str → Nat → Bool
  | [], _ => false
  | c :: cs, n =>
    if n = 0 then c = '-'
    else if c.utf8Size ≤ n then byteIsHyphenAt cs (n - c.utf8Size) else false

/-- Last `/`-separated component of a string (Rust `s.rsplit('/').next()`,
which always yields at least the whole string). -/
def lastSlashSeg (s : Str) : Str := (s.reverse.takeWhile (fun c => c ≠ '/')).reverse

-- ---------------------------------------------------------------------------
-- parse_doc_id (src/crates/y-sweet-core/src/link_indexer.rs lines 21-31)
-- ---------------------------------------------------------------------------

/-- Port of `parse_doc_id`: accepts any string of at least 73 bytes whose byte
at index 36 is `'-'`, returning the byte slices `[..36]` and `[37..]`. -/
def parse_doc_id (doc_id : Str) : Option (Str × Str) :=
  if 73 ≤ utf8Len doc_id ∧ byteIsHyphenAt doc_id 36 then
    some (takeBytes doc_id 36, dropBytes doc_id 37)
  else
    none

-- ---------------------------------------------------------------------------
-- resolve_relative (src/crates/y-sweet-core/src/link_indexer.rs lines 43-64)
-- ---------------------------------------------------------------------------

/-- Characters of `p` strictly before the last `'/'` (Rust
`&p[..p.rfind('/').unwrap_or(0)]`). -/
def dirOf (p : Str) : Str := ((p.reverse.dropWhile (fun c => c ≠ '/')).tail).reverse

/-- Loop body of `resolve_relative`: `..` pops (Rust `Vec::pop`, a no-op on an
empty vector), `.` and empty parts are skipped, everything else is pushed. -/
def rrStep (segs : List Str) (part : Str) : List Str :=
  if part = '.' :: '.' :: [] then segs.dropLast
  else if part ≠ '.' :: [] ∧ part ≠ [] then segs ++ [part]
  else segs

/-- Final formatting of `resolve_relative`. -/
def rrRender (segs : List Str) : Str :=
  if segs = [] then '/' :: '.' :: 'm' :: 'd' :: []
  else '/' :: (joinSep '/' segs ++ '.' :: 'm' :: 'd' :: [])

/-- Port of `resolve_relative`: resolve `page` against the directory of `cur`,
treating `..` as a clamped pop, `.` and empty segments as no-ops. -/
def resolve_relative (cur page : Str) : Str :=
  rrRender ((splitOnChar '/' page).foldl rrStep
    ((splitOnChar '/' (dirOf cur)).filter (fun s => s ≠ [])))

/-- Segment list described by the specification sentence for `resolve_relative`:
start from the segments of the directory of the current file, then process the
page name segment by segment — `..` pops one segment but never past root, `.`
and empty segments change nothing, and every other segment is pushed. -/
def specSegments (cur page : Str) : List Str :=
  (splitOnChar '/' page).foldl
    (fun segs part =>
      if part = '.' :: '.' :: [] then segs.dropLast
      else if part = '.' :: [] ∨ part = [] then segs
      else segs ++ [part])
    ((splitOnChar '/' (dirOf cur)).filter (fun s => s ≠ []))

-- ---------------------------------------------------------------------------
-- Byte-level helper lemmas (used to relate byte slicing to character slicing
-- on ASCII strings)
-- ---------------------------------------------------------------------------

theorem utf8Len_ascii (s : Str) (h : ∀ c ∈ s, c.utf8Size = 1) : utf8Len s = s.length := by
  induction s with
  | nil => rfl
  | cons c cs ih =>
    have hc : c.utf8Size = 1 := h c (by simp)
    have ih2 := ih (fun d hd => h d (by simp [hd]))
    simp only [utf8Len, List.map_cons, List.sum_cons, List.length_cons, hc] at *
    omega

theorem takeBytes_ascii (s : Str) (h : ∀ c ∈ s, c.utf8Size = 1) :
    ∀ n, takeBytes s n = s.take n := by
  induction s with
  | nil => intro n; cases n <;> rfl
  | cons c cs ih =>
    intro n
    cases n with
    | zero => rfl
    | succ m =>
      have hc : c.utf8Size = 1 := h c (by simp)
      have hlt : ¬ (m + 1 < c.utf8Size) := by omega
      simp [takeBytes, hlt, hc, ih (fun d hd => h d (by simp [hd])) m]

theorem dropBytes_ascii (s : Str) (h : ∀ c ∈ s, c.utf8Size = 1) :
    ∀ n, dropBytes s n = s.drop n := by
  induction s with
  | nil => intro n; cases n <;> rfl
  | cons c cs ih =>
    intro n
    cases n with
    | zero => rfl
    | succ m =>
      have hc : c.utf8Size = 1 := h c (by simp)
      have hlt : ¬ (m + 1 < c.utf8Size) := by omega
      simp [dropBytes, hlt, hc, ih (fun d hd => h d (by simp [hd])) m]

theorem byteIsHyphenAt_ascii (s : Str) (h : ∀ c ∈ s, c.utf8Size = 1) :
    ∀ n, byteIsHyphenAt s n = true ↔ s.get? n = some '-' := by
  induction s with
  | nil => intro n; simp [byteIsHyphenAt]
  | cons c cs ih =>
    intro n
    cases n with
    | zero => simp [byteIsHyphenAt]
    | succ m =>
      have hc : c.utf8Size = 1 := h c (by simp)
      have hle : c.utf8Size ≤ m + 1 := by omega
      simp [byteIsHyphenAt, hc, hle, ih (fun d hd => h d (by simp [hd])) m]

-- ---------------------------------------------------------------------------
-- C8
-- ---------------------------------------------------------------------------

/-- C8 counterexample: `parse_doc_id` accepts a 74-byte string with a hyphen at
index 36, while the claim states that every string whose total length is not 73
is rejected. -/
theorem c8_counterexample :
    parse_doc_id
        ("aaaaaaaaaaaaaaaaaaaaaaaaaaaaaaaaaaaa-bbbbbbbbbbbbbbbbbbbbbbbbbbbbbbbbbbbbb".data) =
      some ("aaaaaaaaaaaaaaaaaaaaaaaaaaaaaaaaaaaa".data,
            "bbbbbbbbbbbbbbbbbbbbbbbbbbbbbbbbbbbbb".data) ∧
    utf8Len
        ("aaaaaaaaaaaaaaaaaaaaaaaaaaaaaaaaaaaa-bbbbbbbbbbbbbbbbbbbbbbbbbbbbbbbbbbbbb".data) =
      74 := by
  constructor
  · rfl
  · rfl

/-- C8 (amended): `parse_doc_id d` returns `Some ((first 36 characters of d),
(characters of d from index 37 on))` exactly when `d` is at least 73 bytes long
and its byte at index 36 is `'-'`; in particular it returns `None` for every
string shorter than 73 bytes or without a hyphen at byte 36 (the original
claim's "exactly length 73" is refuted by `c8_counterexample`). -/
theorem c8_parse_doc_id (s : Str) :
    (utf8Len s < 73 ∨ byteIsHyphenAt s 36 = false → parse_doc_id s = none) ∧
    ((∀ c ∈ s, c.utf8Size = 1) → 73 ≤ s.length → s.get? 36 = some '-' →
      parse_doc_id s = some (s.take 36, s.drop 37)) := by
  constructor
  · intro h
    unfold parse_doc_id
    rw [if_neg]
    rintro ⟨h1, h2⟩
    rcases h with h | h
    · omega
    · rw [h2] at h; exact Bool.noConfusion h
  · intro hascii hlen hget
    have hb : byteIsHyphenAt s 36 = true := (byteIsHyphenAt_ascii s hascii 36).mpr hget
    have hl : utf8Len s = s.length := utf8Len_ascii s hascii
    unfold parse_doc_id
    rw [if_pos ⟨by omega, hb⟩, takeBytes_ascii s hascii 36, dropBytes_ascii s hascii 37]

/-- C8 witness: the documented 73-character doc id parses into its two UUIDs. -/
theorem c8_witness :
    parse_doc_id
        ("cb696037-0f72-4e93-8717-4e433129d789-f7c85d0f-8bb4-4a03-80b5-408498d77c52".data) =
      some ("cb696037-0f72-4e93-8717-4e433129d789".data,
            "f7c85d0f-8bb4-4a03-80b5-408498d77c52".data) := by
  have h := (c8_parse_doc_id
    ("cb696037-0f72-4e93-8717-4e433129d789-f7c85d0f-8bb4-4a03-80b5-408498d77c52".data)).2
    (by decide) (by decide) (by decide)
  exact h.trans (by rfl)

-- ---------------------------------------------------------------------------
-- C4
-- ---------------------------------------------------------------------------

theorem specSegments_step_mem (segs : List Str) (part : Str)
    (h : ∀ x ∈ segs, x ≠ []) :
    ∀ x ∈ (if part = '.' :: '.' :: [] then segs.dropLast
           else if part = '.' :: [] ∨ part = [] then segs
           else segs ++ [part]), x ≠ [] := by
  intro x hx
  split_ifs at hx with h1 h2
  · exact h x ((List.dropLast_sublist segs).subset hx)
  · exact h x hx
  · rcases List.mem_append.mp hx with hm | hm
    · exact h x hm
    · have hx2 : x = part := by simpa using hm
      subst hx2
      intro hx0
      exact h2 (Or.inr hx0)

theorem specSegments_all_ne_nil (cur page : Str) :
    ∀ x ∈ specSegments cur page, x ≠ [] := by
  unfold specSegments
  have hinit : ∀ x ∈ (splitOnChar '/' (dirOf cur)).filter (fun s => s ≠ []), x ≠ [] := by
    intro x hx
    have := List.mem_filter.mp hx
    simpa using this.2
  generalize (splitOnChar '/' (dirOf cur)).filter (fun s => s ≠ []) = init at hinit
  induction (splitOnChar '/' page) generalizing init with
  | nil => simpa using hinit
  | cons p ps ih =>
    simp only [List.foldl_cons]
    exact ih _ (specSegments_step_mem init p hinit)

theorem joinSep_ne_nil (sep : Char) (l : List Str) (h0 : l ≠ [])
    (h : ∀ x ∈ l, x ≠ []) : joinSep sep l ≠ [] := by
  match l with
  | [] => exact absurd rfl h0
  | [s] =>
    have := h s (by simp)
    simpa [joinSep] using this
  | s :: t :: r =>
    intro hc
    have heq : joinSep sep (s :: t :: r) = s ++ sep :: joinSep sep (t :: r) := rfl
    rw [heq] at hc
    cases s <;> simp at hc

/-- C4: `resolve_relative` emits `"/" ++ joined segments ++ ".md"` where the
segments are exactly those obtained by starting from the directory of the
current file path, popping on `..` (clamped at root), skipping `.` and empty
segments, and pushing everything else; the result is `"/.md"` exactly when the
final segment list is empty. -/
theorem c4_resolve_relative (cur page : Str) :
    resolve_relative cur page =
      '/' :: (joinSep '/' (specSegments cur page) ++ '.' :: 'm' :: 'd' :: []) ∧
    (resolve_relative cur page = '/' :: '.' :: 'm' :: 'd' :: [] ↔
      specSegments cur page = []) := by
  have hstep : rrStep = (fun (segs : List Str) (part : Str) =>
      if part = '.' :: '.' :: [] then segs.dropLast
      else if part = '.' :: [] ∨ part = [] then segs
      else segs ++ [part]) := by
    funext segs part
    unfold rrStep
    by_cases h1 : part = '.' :: '.' :: []
    · simp [h1]
    · by_cases h2 : part = '.' :: []
      · simp [h1, h2]
      · by_cases h3 : part = ([] : Str)
        · simp [h1, h2, h3]
        · simp [h1, h2, h3]
  have hre : resolve_relative cur page = rrRender (specSegments cur page) := by
    unfold resolve_relative specSegments
    rw [hstep]
  by_cases hs : specSegments cur page = []
  · refine ⟨?_, ?_⟩
    · rw [hre, hs]; rfl
    · rw [hre, hs]; simp [rrRender]
  · have hne : joinSep '/' (specSegments cur page) ≠ [] :=
      joinSep_ne_nil '/' _ hs (specSegments_all_ne_nil cur page)
    refine ⟨?_, ?_⟩
    · rw [hre]; unfold rrRender; rw [if_neg hs]
    · constructor
      · intro h
        rw [hre] at h
        unfold rrRender at h
        rw [if_neg hs] at h
        have hlen := congrArg List.length h
        simp only [List.length_cons, List.length_append] at hlen
        have hpos : 0 < (joinSep '/' (specSegments cur page)).length :=
          List.length_pos.mpr hne
        omega
      · intro h; exact absurd h hs

-- ---------------------------------------------------------------------------
-- Virtual tree resolution
-- (src/crates/y-sweet-core/src/link_indexer.rs lines 151-204)
-- ---------------------------------------------------------------------------

/-- Entry of the virtual filesystem tree that unifies all folder docs. -/
structure VirtualEntry where
  virtual_path : Str
  entry_type : Str
  id : Str
  folder_idx : Nat
deriving DecidableEq

/-- Scan loop of `resolve_in_virtual_tree`: `acc` is the `absolute_match`
fallback recorded so far. -/
def resolveAux (lowerRel : Option Str) (lowerAbs : Str) :
    Option VirtualEntry → List VirtualEntry → Option VirtualEntry
  | acc, [] => acc
  | acc, e :: es =>
    if e.entry_type ≠ "markdown".data then resolveAux lowerRel lowerAbs acc es
    else if lowerRel = some (toLowerStr e.virtual_path) then some e
    else if acc = none ∧ toLowerStr e.virtual_path = lowerAbs then
      resolveAux lowerRel lowerAbs (some e) es
    else resolveAux lowerRel lowerAbs acc es

/-- Port of `resolve_in_virtual_tree`: relative resolution (if a source path is
given) wins and returns immediately; otherwise the first absolute match is
remembered and returned after the scan.  All comparisons are lowercased. -/
def resolve_in_virtual_tree (link_name : Str) (source_virtual_path : Option Str)
    (entries : List VirtualEntry) : Option VirtualEntry :=
  resolveAux
    (source_virtual_path.map (fun svp => toLowerStr (resolve_relative svp link_name)))
    (toLowerStr ('/' :: (link_name ++ '.' :: 'm' :: 'd' :: [])))
    none entries

/-- Specification-side predicate: a markdown entry whose lowercased virtual
path equals the lowercased relative resolution of the link from the source
path. -/
def relMatchB (link_name : Str) (svp : Option Str) (e : VirtualEntry) : Bool :=
  e.entry_type == "markdown".data &&
    (match svp with
     | some sp => toLowerStr e.virtual_path == toLowerStr (resolve_relative sp link_name)
     | none => false)

/-- Specification-side predicate: a markdown entry whose lowercased virtual
path equals the lowercased `"/{link_name}.md"`. -/
def absMatchB (link_name : Str) (e : VirtualEntry) : Bool :=
  e.entry_type == "markdown".data &&
    toLowerStr e.virtual_path == toLowerStr ('/' :: (link_name ++ '.' :: 'm' :: 'd' :: []))

theorem resolveAux_spec (lr : Option Str) (la : Str) (entries : List VirtualEntry) :
    ∀ acc : Option VirtualEntry,
      resolveAux lr la acc entries =
        (match entries.find?
            (fun e => e.entry_type == "markdown".data && lr == some (toLowerStr e.virtual_path)) with
         | some e => some e
         | none =>
           match acc with
           | some a => some a
           | none => entries.find?
               (fun e => e.entry_type == "markdown".data && toLowerStr e.virtual_path == la)) := by
  induction entries with
  | nil => intro acc; cases acc <;> simp [resolveAux]
  | cons e es ih =>
    intro acc
    by_cases hmd : e.entry_type = "markdown".data
    · by_cases hrel : lr = some (toLowerStr e.virtual_path)
      · rw [resolveAux, if_neg (by simpa using hmd), if_pos hrel]
        have hfind : (e :: es).find?
            (fun x => x.entry_type == "markdown".data && lr == some (toLowerStr x.virtual_path))
            = some e := by
          rw [List.find?_cons_of_pos]
          simp [hmd, hrel]
        rw [hfind]
      · have hfr : (e :: es).find?
            (fun x => x.entry_type == "markdown".data && lr == some (toLowerStr x.virtual_path))
            = es.find?
              (fun x => x.entry_type == "markdown".data && lr == some (toLowerStr x.virtual_path)) := by
          rw [List.find?_cons_of_neg]
          simp [hmd, hrel]
        by_cases habs : acc = none ∧ toLowerStr e.virtual_path = la
        · rw [resolveAux, if_neg (by simpa using hmd), if_neg hrel, if_pos habs, ih (some e), hfr]
          rcases habs with ⟨hacc, hle⟩
          subst hacc
          have hfa : (e :: es).find?
              (fun x => x.entry_type == "markdown".data && toLowerStr x.virtual_path == la)
              = some e := by
            rw [List.find?_cons_of_pos]
            simp [hmd, hle]
          rw [hfa]
        · rw [resolveAux, if_neg (by simpa using hmd), if_neg hrel, if_neg habs, ih acc, hfr]
          cases hacc : acc with
          | some a => rfl
          | none =>
            have hnabs : ¬ toLowerStr e.virtual_path = la := by
              intro hc; exact habs ⟨hacc, hc⟩
            have hfa : (e :: es).find?
                (fun x => x.entry_type == "markdown".data && toLowerStr x.virtual_path == la)
                = es.find?
                  (fun x => x.entry_type == "markdown".data && toLowerStr x.virtual_path == la) := by
              rw [List.find?_cons_of_neg]
              simp [hmd, hnabs]
            rw [hfa]
    · rw [resolveAux, if_pos (by simpa using hmd), ih acc]
      have h1 : (e :: es).find?
          (fun x => x.entry_type == "markdown".data && lr == some (toLowerStr x.virtual_path))
          = es.find?
            (fun x => x.entry_type == "markdown".data && lr == some (toLowerStr x.virtual_path)) := by
        rw [List.find?_cons_of_neg]
        simp [hmd]
      have h2 : (e :: es).find?
          (fun x => x.entry_type == "markdown".data && toLowerStr x.virtual_path == la)
          = es.find?
            (fun x => x.entry_type == "markdown".data && toLowerStr x.virtual_path == la) := by
        rw [List.find?_cons_of_neg]
        simp [hmd]
      rw [h1, h2]

/-- C2: `resolve_in_virtual_tree` only ever returns markdown entries, and its
result is exactly: the first scanned markdown entry whose lowercased virtual
path equals the lowercased relative resolution of the link (when a source path
is given), otherwise the first scanned markdown entry whose lowercased virtual
path equals the lowercased `"/{link_name}.md"`, otherwise nothing — no
basename-only matching. -/
theorem c2_resolve_in_virtual_tree (link_name : Str) (svp : Option Str)
    (entries : List VirtualEntry) :
    (∀ e, resolve_in_virtual_tree link_name svp entries = some e →
      e.entry_type = "markdown".data) ∧
    resolve_in_virtual_tree link_name svp entries =
      (match entries.find? (relMatchB link_name svp) with
       | some e => some e
       | none => entries.find? (absMatchB link_name)) := by
  have hrel : (fun (e : VirtualEntry) => e.entry_type == "markdown".data &&
      (svp.map (fun s => toLowerStr (resolve_relative s link_name))) ==
        some (toLowerStr e.virtual_path)) = relMatchB link_name svp := by
    funext e
    cases svp with
    | none => simp [relMatchB]
    | some sp =>
      simp only [relMatchB, Option.map_some']
      by_cases h : toLowerStr (resolve_relative sp link_name) = toLowerStr e.virtual_path
      · simp [h]
      · have h2 : ¬ toLowerStr e.virtual_path = toLowerStr (resolve_relative sp link_name) :=
          fun hc => h hc.symm
        have hb1 : (toLowerStr (resolve_relative sp link_name) == toLowerStr e.virtual_path) = false :=
          beq_eq_false_iff_ne.mpr h
        have hb2 : (toLowerStr e.virtual_path == toLowerStr (resolve_relative sp link_name)) = false :=
          beq_eq_false_iff_ne.mpr h2
        simp [hb1, hb2]
  have hmain : resolve_in_virtual_tree link_name svp entries =
      (match entries.find? (relMatchB link_name svp) with
       | some e => some e
       | none => entries.find? (absMatchB link_name)) := by
    unfold resolve_in_virtual_tree
    rw [resolveAux_spec, hrel]
    rfl
  refine ⟨?_, hmain⟩
  intro e he
  rw [hmain] at he
  rcases hfr : entries.find? (relMatchB link_name svp) with _ | x
  · rw [hfr] at he
    simp only at he
    have := List.find?_some he
    simp [absMatchB] at this
    exact this.1
  · rw [hfr] at he
    simp only at he
    cases he
    have := List.find?_some hfr
    simp [relMatchB] at this
    exact this.1

/-- C2 witness: resolving `[[Ideas]]` from `/Lens/Notes.md` against a one-entry
tree returns that markdown entry. -/
theorem c2_witness :
    resolve_in_virtual_tree ("Ideas".data) (some ("/Lens/Notes.md".data))
        [⟨"/Lens/Ideas.md".data, "markdown".data, "u1".data, 0⟩] =
      some ⟨"/Lens/Ideas.md".data, "markdown".data, "u1".data, 0⟩ ∧
    (⟨"/Lens/Ideas.md".data, "markdown".data, "u1".data, 0⟩ : VirtualEntry).entry_type =
      "markdown".data := by
  have h := c2_resolve_in_virtual_tree ("Ideas".data) (some ("/Lens/Notes.md".data))
    [⟨"/Lens/Ideas.md".data, "markdown".data, "u1".data, 0⟩]
  exact ⟨by decide, h.1 _ (by decide)⟩

-- ---------------------------------------------------------------------------
-- Association-list model of a `Y.Map` / `HashMap` with string keys
-- ---------------------------------------------------------------------------

/-- Map lookup: value of the first pair with the given key. -/
def aGet {α : Type} : List (Str × α) → Str → Option α
  | [], _ => none
  | p :: ps, k => if p.1 = k then some p.2 else aGet ps k

def aInsert {α : Type} : List (Str × α) → Str → α → List (Str × α)
  | [], k, v => [(k, v)]
  | p :: ps, k, v => if p.1 = k then (k, v) :: ps else p :: aInsert ps k v

def aRemove {α : Type} : List (Str × α) → Str → List (Str × α)
  | [], _ => []
  | p :: ps, k => if p.1 = k then aRemove ps k else p :: aRemove ps k

theorem aGet_cons {α : Type} (p : Str × α) (ps : List (Str × α)) (k : Str) :
    aGet (p :: ps) k = if p.1 = k then some p.2 else aGet ps k := rfl

theorem aInsert_cons {α : Type} (p : Str × α) (ps : List (Str × α)) (k : Str) (v : α) :
    aInsert (p :: ps) k v = if p.1 = k then (k, v) :: ps else p :: aInsert ps k v := rfl

theorem aRemove_cons {α : Type} (p : Str × α) (ps : List (Str × α)) (k : Str) :
    aRemove (p :: ps) k = if p.1 = k then aRemove ps k else p :: aRemove ps k := rfl

theorem aGet_insert_self {α : Type} (m : List (Str × α)) (k : Str) (v : α) :
    aGet (aInsert m k v) k = some v := by
  induction m with
  | nil => simp [aInsert, aGet]
  | cons p ps ih =>
    by_cases hp : p.1 = k
    · rw [aInsert_cons, if_pos hp, aGet_cons, if_pos rfl]
    · rw [aInsert_cons, if_neg hp, aGet_cons, if_neg hp]
      exact ih

theorem aGet_insert_ne {α : Type} (m : List (Str × α)) (k k' : Str) (v : α)
    (h : k' ≠ k) : aGet (aInsert m k v) k' = aGet m k' := by
  have hkk : ¬ k = k' := fun hc => h hc.symm
  induction m with
  | nil => simp [aInsert, aGet, hkk]
  | cons p ps ih =>
    by_cases hp : p.1 = k
    · have hpq : ¬ p.1 = k' := by rw [hp]; exact hkk
      rw [aInsert_cons, if_pos hp, aGet_cons, if_neg hkk, aGet_cons, if_neg hpq]
    · by_cases hq : p.1 = k'
      · rw [aInsert_cons, if_neg hp, aGet_cons, if_pos hq, aGet_cons, if_pos hq]
      · rw [aInsert_cons, if_neg hp, aGet_cons, if_neg hq, aGet_cons, if_neg hq, ih]

theorem aGet_remove_self {α : Type} (m : List (Str × α)) (k : Str) :
    aGet (aRemove m k) k = none := by
  induction m with
  | nil => rfl
  | cons p ps ih =>
    by_cases hp : p.1 = k
    · rw [aRemove_cons, if_pos hp]; exact ih
    · rw [aRemove_cons, if_neg hp, aGet_cons, if_neg hp]; exact ih

theorem aGet_remove_ne {α : Type} (m : List (Str × α)) (k k' : Str) (h : k' ≠ k) :
    aGet (aRemove m k) k' = aGet m k' := by
  induction m with
  | nil => rfl
  | cons p ps ih =>
    by_cases hp : p.1 = k
    · have hq : ¬ p.1 = k' := by rw [hp]; exact fun hc => h hc.symm
      rw [aRemove_cons, if_pos hp, ih, aGet_cons, if_neg hq]
    · by_cases hq : p.1 = k'
      · rw [aRemove_cons, if_neg hp, aGet_cons, if_pos hq, aGet_cons, if_pos hq]
      · rw [aRemove_cons, if_neg hp, aGet_cons, if_neg hq, aGet_cons, if_neg hq, ih]

theorem aGet_eq_some_mem {α : Type} {m : List (Str × α)} {k : Str} {v : α}
    (h : aGet m k = some v) : (k, v) ∈ m := by
  induction m with
  | nil => simp [aGet] at h
  | cons p ps ih =>
    rcases p with ⟨a, b⟩
    by_cases hp : a = k
    · rw [aGet_cons, if_pos hp] at h
      have hbv : b = v := by
        have := Option.some.inj h
        exact this
      subst hp
      subst hbv
      exact List.mem_cons_self _ _
    · rw [aGet_cons, if_neg hp] at h
      exact List.mem_cons_of_mem _ (ih h)

theorem mem_aGet {α : Type} {m : List (Str × α)} {k : Str} {v : α}
    (hnd : (m.map Prod.fst).Nodup) (hm : (k, v) ∈ m) : aGet m k = some v := by
  induction m with
  | nil => simp at hm
  | cons p ps ih =>
    rcases p with ⟨a, b⟩
    rw [List.map_cons] at hnd
    have hnd2 := List.nodup_cons.mp hnd
    rcases List.mem_cons.mp hm with hh | ht
    · injection hh with h1 h2
      subst h1
      subst h2
      rw [aGet_cons, if_pos rfl]
    · have hk : k ∈ ps.map Prod.fst := List.mem_map.mpr ⟨(k, v), ht, rfl⟩
      have hp : ¬ a = k := by
        intro hc
        apply hnd2.1
        show a ∈ ps.map Prod.fst
        rw [hc]
        exact hk
      rw [aGet_cons, if_neg hp]
      exact ih hnd2.2 ht

theorem aGet_none_of_not_mem {α : Type} {m : List (Str × α)} {k : Str}
    (h : k ∉ m.map Prod.fst) : aGet m k = none := by
  induction m with
  | nil => rfl
  | cons p ps ih =>
    rw [List.map_cons] at h
    have hp : ¬ p.1 = k := fun hc => h (List.mem_cons.mpr (Or.inl hc.symm))
    rw [aGet_cons, if_neg hp]
    exact ih (fun hc => h (List.mem_cons.mpr (Or.inr hc)))

theorem aGet_some_mem_keys {α : Type} {m : List (Str × α)} {k : Str} {v : α}
    (h : aGet m k = some v) : k ∈ m.map Prod.fst :=
  List.mem_map.mpr ⟨(k, v), aGet_eq_some_mem h, rfl⟩

theorem aInsert_map_fst {α : Type} (m : List (Str × α)) (k : Str) (v : α) :
    (aInsert m k v).map Prod.fst =
      (if k ∈ m.map Prod.fst then m.map Prod.fst else m.map Prod.fst ++ [k]) := by
  induction m with
  | nil => simp [aInsert]
  | cons p ps ih =>
    by_cases hp : p.1 = k
    · rw [aInsert_cons, if_pos hp, List.map_cons, List.map_cons,
        if_pos (List.mem_cons.mpr (Or.inl hp.symm))]
      show k :: ps.map Prod.fst = p.1 :: ps.map Prod.fst
      rw [hp]
    · rw [aInsert_cons, if_neg hp, List.map_cons, List.map_cons, ih]
      by_cases hk : k ∈ ps.map Prod.fst
      · rw [if_pos hk, if_pos (List.mem_cons.mpr (Or.inr hk))]
      · have hne : k ∉ p.1 :: ps.map Prod.fst := by
          intro hc
          rcases List.mem_cons.mp hc with hc1 | hc2
          · exact hp hc1.symm
          · exact hk hc2
        rw [if_neg hk, if_neg hne, List.cons_append]

theorem aInsert_keys_nodup {α : Type} {m : List (Str × α)} (k : Str) (v : α)
    (hnd : (m.map Prod.fst).Nodup) : ((aInsert m k v).map Prod.fst).Nodup := by
  rw [aInsert_map_fst]
  split_ifs with h
  · exact hnd
  · rw [List.nodup_append]
    refine ⟨hnd, List.nodup_singleton k, ?_⟩
    intro a ha hb
    have hak : a = k := List.mem_singleton.mp hb
    exact h (hak ▸ ha)

-- ---------------------------------------------------------------------------
-- Folder documents and filemeta
-- ---------------------------------------------------------------------------

/-- Fields of a `filemeta_v0` entry that the indexer reads (`id` and `type`);
either may be absent, as in `extract_id_from_filemeta_entry` /
`extract_type_from_filemeta_entry`. -/
structure FileMeta where
  id : Option Str
  ftype : Option Str
deriving DecidableEq

/-- Model of a folder document.  `filemeta` is `none` when the document has no
`filemeta_v0` map at all (`txn.get_map` returning `None`).  `backlinks_v0` is
modelled as a plain association list: the code only ever touches it through
`get_or_insert_map`, under which an absent map behaves exactly like an empty
one. -/
structure FolderDoc where
  filemeta : Option (List (Str × FileMeta))
  folder_config_name : Option Str
  backlinks : List (Str × List Str)
deriving DecidableEq

-- ---------------------------------------------------------------------------
-- Rename detection (src/crates/y-sweet-core/src/link_indexer.rs lines 990-1047)
-- ---------------------------------------------------------------------------

/-- Snapshot cached per folder: `uuid -> (basename, filemeta path)`. -/
abbrev Snap := List (Str × (Str × Str))

/-- Rust `strip_suffix(".md")`. -/
def stripDotMd (s : Str) : Option Str :=
  if ('.' :: 'm' :: 'd' :: []).isSuffixOf s then some (s.take (s.length - 3)) else none

/-- Basename computation of `detect_renames`: strip one leading `/`, strip a
trailing `.md` — falling back to the whole original path (including the leading
slash) when there is no `.md` suffix, exactly as the chained `unwrap_or(&path)`
does — then take the last `/`-separated component. -/
def snapBasename (path : Str) : Str :=
  let s1 : Str := if path.head? = some '/' then path.tail else path
  let s2 : Str :=
    match stripDotMd s1 with
    | some t => t
    | none => path
  lastSlashSeg s2

/-- Snapshot construction: scan `filemeta_v0` and record
`uuid -> (basename, path)` for every entry carrying an `id` (a `HashMap`
insert, so a later entry with the same uuid overwrites an earlier one). -/
def buildSnapshot (filemeta : List (Str × FileMeta)) : Snap :=
  filemeta.foldl
    (fun m pv =>
      match pv.2.id with
      | some uuid => aInsert m uuid (snapBasename pv.1, pv.1)
      | none => m)
    []

/-- Rename event emitted when a uuid keeps existing but its basename changes. -/
structure RenameEvent where
  uuid : Str
  old_name : Str
  new_name : Str
  old_path : Str
deriving DecidableEq

/-- Comparison step of `detect_renames` for one entry of the current snapshot. -/
def renameStep (old : Snap) (kv : Str × (Str × Str)) : Option RenameEvent :=
  match aGet old kv.1 with
  | some obp => if obp.1 ≠ kv.2.1 then some ⟨kv.1, obp.1, kv.2.1, obp.2⟩ else none
  | none => none

/-- Port of `detect_renames` as a pure state transition on the cached snapshot:
returns the new cache content and the emitted events.  A folder doc without a
`filemeta_v0` map returns early without touching the cache; a first call seeds
the cache and returns no events. -/
def detect_renames (cache : Option Snap) (folder : FolderDoc) :
    Option Snap × List RenameEvent :=
  match folder.filemeta with
  | none => (cache, [])
  | some filemeta =>
    let current := buildSnapshot filemeta
    match cache with
    | none => (some current, [])
    | some old => (some current, current.filterMap (renameStep old))

theorem buildSnapshot_keys_nodup (filemeta : List (Str × FileMeta)) :
    ((buildSnapshot filemeta).map Prod.fst).Nodup := by
  unfold buildSnapshot
  have hgen : ∀ (l : List (Str × FileMeta)) (init : Snap),
      (init.map Prod.fst).Nodup →
      ((l.foldl
        (fun m pv =>
          match pv.2.id with
          | some uuid => aInsert m uuid (snapBasename pv.1, pv.1)
          | none => m) init).map Prod.fst).Nodup := by
    intro l
    induction l with
    | nil => intro init h; simpa using h
    | cons pv ps ih =>
      intro init h
      rw [List.foldl_cons]
      cases hid : pv.2.id with
      | none => simpa [hid] using ih init h
      | some uuid =>
        simp only [hid]
        exact ih _ (aInsert_keys_nodup uuid _ h)
  exact hgen filemeta [] (by simp)

theorem renameStep_uuid {old : Snap} {kv : Str × (Str × Str)} {ev : RenameEvent}
    (h : renameStep old kv = some ev) : ev.uuid = kv.1 := by
  cases hg : aGet old kv.1 with
  | none => simp [renameStep, hg] at h
  | some obp =>
    simp only [renameStep, hg] at h
    by_cases hne : obp.1 ≠ kv.2.1
    · rw [if_pos hne] at h
      cases h
      rfl
    · rw [if_neg hne] at h
      exact absurd h (by simp)

theorem renameEvents_uuid_mem {old : Snap} {l : List (Str × (Str × Str))}
    {ev : RenameEvent} (h : ev ∈ l.filterMap (renameStep old)) :
    ev.uuid ∈ l.map Prod.fst := by
  rcases List.mem_filterMap.mp h with ⟨kv, hkv, hstep⟩
  exact List.mem_map.mpr ⟨kv, hkv, (renameStep_uuid hstep).symm⟩

theorem renameEvents_uuid_nodup (old : Snap) (l : List (Str × (Str × Str)))
    (hnd : (l.map Prod.fst).Nodup) :
    ((l.filterMap (renameStep old)).map (fun ev => ev.uuid)).Nodup := by
  induction l with
  | nil => simp
  | cons kv ps ih =>
    rw [List.map_cons] at hnd
    have hnd2 := List.nodup_cons.mp hnd
    cases hstep : renameStep old kv with
    | none =>
      rw [List.filterMap_cons, hstep]
      exact ih hnd2.2
    | some ev =>
      rw [List.filterMap_cons, hstep, List.map_cons, List.nodup_cons]
      refine ⟨?_, ih hnd2.2⟩
      intro hc
      rcases List.mem_map.mp hc with ⟨ev2, hev2, huu⟩
      have h1 : ev2.uuid ∈ ps.map Prod.fst := renameEvents_uuid_mem hev2
      rw [huu, renameStep_uuid hstep] at h1
      exact hnd2.1 h1

/-- C5: `detect_renames` emits no events on a seeding call or when the current
snapshot equals the cached one; in general it emits exactly one event per uuid
present in both snapshots with a changed basename — carrying the old basename,
new basename and old path — and no event for any other uuid (added or deleted
files, or unchanged basenames, including pure directory moves). -/
theorem c5_detect_renames :
    (∀ folder, (detect_renames none folder).2 = []) ∧
    (∀ folder filemeta, folder.filemeta = some filemeta →
      (detect_renames (some (buildSnapshot filemeta)) folder).2 = []) ∧
    (∀ folder filemeta old, folder.filemeta = some filemeta →
      (((detect_renames (some old) folder).2.map (fun ev => ev.uuid)).Nodup) ∧
      (∀ ev ∈ (detect_renames (some old) folder).2,
        aGet old ev.uuid = some (ev.old_name, ev.old_path) ∧
        (∃ p, aGet (buildSnapshot filemeta) ev.uuid = some (ev.new_name, p)) ∧
        ev.old_name ≠ ev.new_name) ∧
      (∀ u bo po bn pn, aGet old u = some (bo, po) →
        aGet (buildSnapshot filemeta) u = some (bn, pn) → bo ≠ bn →
        ∃ ev ∈ (detect_renames (some old) folder).2, ev.uuid = u)) := by
  refine ⟨?_, ?_, ?_⟩
  · intro folder
    unfold detect_renames
    cases folder.filemeta <;> rfl
  · intro folder filemeta hfm
    unfold detect_renames
    rw [hfm]
    simp only
    rw [List.filterMap_eq_nil_iff]
    intro kv hkv
    unfold renameStep
    rw [mem_aGet (buildSnapshot_keys_nodup filemeta) (by rwa [Prod.mk.eta])]
    simp
  · intro folder filemeta old hfm
    have hev : (detect_renames (some old) folder).2 =
        (buildSnapshot filemeta).filterMap (renameStep old) := by
      unfold detect_renames
      rw [hfm]
    refine ⟨?_, ?_, ?_⟩
    · rw [hev]
      exact renameEvents_uuid_nodup old _ (buildSnapshot_keys_nodup filemeta)
    · intro ev hev2
      rw [hev] at hev2
      rcases List.mem_filterMap.mp hev2 with ⟨kv, hkv, hstep⟩
      cases hg : aGet old kv.1 with
      | none => simp [renameStep, hg] at hstep
      | some obp =>
        simp only [renameStep, hg] at hstep
        by_cases hne : obp.1 ≠ kv.2.1
        · rw [if_pos hne] at hstep
          cases hstep
          refine ⟨by rw [hg, Prod.mk.eta], ⟨kv.2.2, ?_⟩, hne⟩
          rw [mem_aGet (buildSnapshot_keys_nodup filemeta) hkv]
        · rw [if_neg hne] at hstep
          exact absurd hstep (by simp)
    · intro u bo po bn pn hold hcur hne
      rw [hev]
      have hkv : (u, (bn, pn)) ∈ buildSnapshot filemeta := aGet_eq_some_mem hcur
      refine ⟨⟨u, bo, bn, po⟩, List.mem_filterMap.mpr ⟨(u, (bn, pn)), hkv, ?_⟩, rfl⟩
      simp [renameStep, hold, hne]

/-- C5 witness: a second call with the snapshot rebuilt from unchanged
filemeta emits no events. -/
theorem c5_witness :
    (detect_renames
        (some (buildSnapshot [("/Foo.md".data, ⟨some ("u".data), some ("markdown".data)⟩)]))
        ⟨some [("/Foo.md".data, ⟨some ("u".data), some ("markdown".data)⟩)],
         some ("Lens".data), []⟩).2 = [] :=
  c5_detect_renames.2.1 _ _ rfl

-- ---------------------------------------------------------------------------
-- Backlink maps
-- (src/crates/y-sweet-core/src/link_indexer.rs lines 128-149, 369-452, 461-492)
-- ---------------------------------------------------------------------------

/-- Port of `read_backlinks_array`: the array under a target uuid, or `[]` when
the key is absent. -/
def readBL (backlinks : List (Str × List Str)) (target : Str) : List Str :=
  (aGet backlinks target).getD []

/-- Phase 1 of the per-folder diff update: for every new target, append the
source uuid to the target's array unless it is already present. -/
def addSourceToTargets (source : Str) (newTargets : List Str)
    (B : List (Str × List Str)) : List (Str × List Str) :=
  newTargets.foldl
    (fun B t =>
      if source ∈ readBL B t then B else aInsert B t (readBL B t ++ [source]))
    B

/-- Cleanup body shared by the indexer's phase 2 (`skip` = resolved target set)
and by `remove_doc_from_backlinks` (`skip = []`): for a key not in `skip` whose
array contains the source uuid, remove the uuid, deleting the key entirely when
the remaining array is empty. -/
def cleanupKey (source : Str) (skip : List Str) (B : List (Str × List Str))
    (k : Str) : List (Str × List Str) :=
  if k ∈ skip then B
  else
    if source ∈ readBL B k then
      if (readBL B k).filter (fun s => s ≠ source) = [] then aRemove B k
      else aInsert B k ((readBL B k).filter (fun s => s ≠ source))
    else B

/-- Value left under a key after the source uuid is stripped: `none` when the
array would become empty. -/
def strippedVal (source : Str) (cur : List Str) : Option (List Str) :=
  if cur.filter (fun s => s ≠ source) = [] then none
  else some (cur.filter (fun s => s ≠ source))

/-- Per-folder diff update of `index_content_into_folders_from_text`: phase 1
adds the source under each of this folder's resolved targets, phase 2 walks all
keys and strips the source from keys outside the global resolved target set. -/
def updateFolderBacklinks (source : Str) (newTargets allNew : List Str)
    (B : List (Str × List Str)) : List (Str × List Str) :=
  let B1 := addSourceToTargets source newTargets B
  (B1.map Prod.fst).foldl (cleanupKey source allNew) B1

theorem cleanupKey_pres (source : Str) (skip : List Str) (B : List (Str × List Str))
    (kk k : Str) (hne : k ≠ kk) :
    aGet (cleanupKey source skip B kk) k = aGet B k := by
  unfold cleanupKey
  split_ifs with h1 h2 h3
  · rfl
  · exact aGet_remove_ne B kk k hne
  · exact aGet_insert_ne B kk k _ hne
  · rfl

theorem cleanupKey_self (source : Str) (skip : List Str) (B : List (Str × List Str))
    (k : Str) (hskip : k ∉ skip) (hsrc : source ∈ readBL B k) :
    aGet (cleanupKey source skip B k) k = strippedVal source (readBL B k) := by
  unfold cleanupKey strippedVal
  rw [if_neg hskip, if_pos hsrc]
  split_ifs with h
  · exact aGet_remove_self B k
  · exact aGet_insert_self B k _

theorem cleanupKey_self_nosrc (source : Str) (skip : List Str)
    (B : List (Str × List Str)) (k : Str) (hsrc : source ∉ readBL B k) :
    cleanupKey source skip B k = B := by
  unfold cleanupKey
  by_cases h1 : k ∈ skip
  · rw [if_pos h1]
  · rw [if_neg h1, if_neg hsrc]

theorem cleanupKey_skip (source : Str) (skip : List Str) (B : List (Str × List Str))
    (k : Str) (h : k ∈ skip) : cleanupKey source skip B k = B := by
  unfold cleanupKey
  rw [if_pos h]

theorem source_not_mem_filter (source : Str) (cur : List Str) :
    source ∉ cur.filter (fun s => s ≠ source) := by
  intro h
  have := List.mem_filter.mp h
  simp at this

theorem source_mem_readBL_some {source : Str} {B : List (Str × List Str)} {k : Str}
    (h : source ∈ readBL B k) : aGet B k = some (readBL B k) := by
  cases hg : aGet B k with
  | none =>
    unfold readBL at h
    rw [hg] at h
    simp at h
  | some cur =>
    unfold readBL
    rw [hg]
    rfl

theorem source_not_mem_strippedVal (source : Str) (cur : List Str) :
    source ∉ (strippedVal source cur).getD [] := by
  unfold strippedVal
  split_ifs with h
  · simp
  · exact source_not_mem_filter source cur

theorem cleanup_foldl_aGet (source : Str) (skip : List Str) :
    ∀ (ks : List Str) (B : List (Str × List Str)) (k : Str), k ∉ skip →
      aGet (ks.foldl (cleanupKey source skip) B) k =
        if k ∈ ks ∧ source ∈ readBL B k then strippedVal source (readBL B k)
        else aGet B k := by
  intro ks
  induction ks with
  | nil =>
    intro B k hk
    rw [List.foldl_nil, if_neg]
    rintro ⟨hc, _⟩
    simp at hc
  | cons kk ks ih =>
    intro B k hk
    rw [List.foldl_cons]
    by_cases hkk : k = kk
    · subst hkk
      by_cases hsrc : source ∈ readBL B k
      · have hself := cleanupKey_self source skip B k hk hsrc
        have hnosrc : source ∉ readBL (cleanupKey source skip B k) k := by
          unfold readBL
          rw [hself]
          exact source_not_mem_strippedVal source (readBL B k)
        rw [ih _ k hk, if_neg (fun hc => hnosrc hc.2), hself,
          if_pos ⟨List.mem_cons_self k ks, hsrc⟩]
      · rw [cleanupKey_self_nosrc source skip B k hsrc, ih B k hk,
          if_neg (fun hc => hsrc hc.2), if_neg (fun hc => hsrc hc.2)]
    · have hpres := cleanupKey_pres source skip B kk k hkk
      have hread : readBL (cleanupKey source skip B kk) k = readBL B k := by
        unfold readBL
        rw [hpres]
      rw [ih _ k hk, hread, hpres]
      by_cases hc : k ∈ ks ∧ source ∈ readBL B k
      · rw [if_pos hc, if_pos ⟨List.mem_cons_of_mem kk hc.1, hc.2⟩]
      · rw [if_neg hc, if_neg]
        rintro ⟨hm, hs⟩
        exact hc ⟨(List.mem_cons.mp hm).resolve_left hkk, hs⟩

theorem cleanup_foldl_pres_skip (source : Str) (skip : List Str) :
    ∀ (ks : List Str) (B : List (Str × List Str)) (k : Str), k ∈ skip →
      aGet (ks.foldl (cleanupKey source skip) B) k = aGet B k := by
  intro ks
  induction ks with
  | nil => intro B k _; rfl
  | cons kk ks ih =>
    intro B k hk
    rw [List.foldl_cons]
    by_cases hkk : kk ∈ skip
    · rw [cleanupKey_skip source skip B kk hkk]
      exact ih B k hk
    · have hne : k ≠ kk := fun hc => hkk (hc ▸ hk)
      rw [ih _ k hk, cleanupKey_pres source skip B kk k hne]

theorem addSource_pres (source : Str) :
    ∀ (ts : List Str) (B : List (Str × List Str)) (k : Str), k ∉ ts →
      aGet (addSourceToTargets source ts B) k = aGet B k := by
  intro ts
  induction ts with
  | nil => intro B k _; rfl
  | cons t ts ih =>
    intro B k hk
    have hkt : k ≠ t := fun hc => hk (hc ▸ List.mem_cons_self t ts)
    have hk2 : k ∉ ts := fun hc => hk (List.mem_cons_of_mem t hc)
    unfold addSourceToTargets at *
    rw [List.foldl_cons]
    by_cases hsrc : source ∈ readBL B t
    · rw [if_pos hsrc]
      exact ih B k hk2
    · rw [if_neg hsrc, ih _ k hk2, aGet_insert_ne B t k _ hkt]

theorem addSource_keeps (source : Str) :
    ∀ (ts : List Str) (B : List (Str × List Str)) (k : Str),
      source ∈ readBL B k → source ∈ readBL (addSourceToTargets source ts B) k := by
  intro ts
  induction ts with
  | nil => intro B k h; exact h
  | cons t ts ih =>
    intro B k h
    unfold addSourceToTargets at *
    rw [List.foldl_cons]
    by_cases hsrc : source ∈ readBL B t
    · rw [if_pos hsrc]
      exact ih B k h
    · rw [if_neg hsrc]
      apply ih
      have hkt : k ≠ t := fun hc => hsrc (hc ▸ h)
      unfold readBL
      rw [aGet_insert_ne B t k _ hkt]
      exact h

theorem addSource_mem (source : Str) :
    ∀ (ts : List Str) (B : List (Str × List Str)) (t : Str), t ∈ ts →
      source ∈ readBL (addSourceToTargets source ts B) t := by
  intro ts
  induction ts with
  | nil => intro B t h; simp at h
  | cons t0 ts ih =>
    intro B t ht
    unfold addSourceToTargets at *
    rw [List.foldl_cons]
    rcases List.mem_cons.mp ht with hh | htail
    · subst hh
      by_cases hsrc : source ∈ readBL B t
      · rw [if_pos hsrc]
        exact addSource_keeps source ts B t hsrc
      · rw [if_neg hsrc]
        apply addSource_keeps
        unfold readBL
        rw [aGet_insert_self]
        simp
    · by_cases hsrc : source ∈ readBL B t0
      · rw [if_pos hsrc]
        exact ih B t htail
      · rw [if_neg hsrc]
        exact ih _ t htail

theorem updateFolderBacklinks_target (source : Str) (ts allNew : List Str)
    (B : List (Str × List Str)) (t : Str) (ht : t ∈ ts) (hAll : t ∈ allNew) :
    source ∈ readBL (updateFolderBacklinks source ts allNew B) t := by
  unfold updateFolderBacklinks readBL
  rw [cleanup_foldl_pres_skip source allNew _ _ t hAll]
  exact addSource_mem source ts B t ht

theorem updateFolderBacklinks_cleanup (source : Str) (ts allNew : List Str)
    (B : List (Str × List Str)) (k : Str) (hka : k ∉ allNew)
    (hsub : ∀ x ∈ ts, x ∈ allNew) (hsrc : source ∈ readBL B k) :
    aGet (updateFolderBacklinks source ts allNew B) k =
      strippedVal source (readBL B k) := by
  unfold updateFolderBacklinks
  have hkt : k ∉ ts := fun hc => hka (hsub k hc)
  have h1 : aGet (addSourceToTargets source ts B) k = aGet B k :=
    addSource_pres source ts B k hkt
  have hread : readBL (addSourceToTargets source ts B) k = readBL B k := by
    unfold readBL
    rw [h1]
  have hsrc1 : source ∈ readBL (addSourceToTargets source ts B) k := by
    rw [hread]; exact hsrc
  have hkeys : k ∈ (addSourceToTargets source ts B).map Prod.fst := by
    apply aGet_some_mem_keys (v := readBL (addSourceToTargets source ts B) k)
    exact source_mem_readBL_some hsrc1
  rw [cleanup_foldl_aGet source allNew _ _ k hka, if_pos ⟨hkeys, hsrc1⟩, hread]

theorem updateFolderBacklinks_frame (source : Str) (ts allNew : List Str)
    (B : List (Str × List Str)) (k : Str) (hka : k ∉ allNew)
    (hsub : ∀ x ∈ ts, x ∈ allNew) (hsrc : source ∉ readBL B k) :
    aGet (updateFolderBacklinks source ts allNew B) k = aGet B k := by
  unfold updateFolderBacklinks
  have hkt : k ∉ ts := fun hc => hka (hsub k hc)
  have h1 : aGet (addSourceToTargets source ts B) k = aGet B k :=
    addSource_pres source ts B k hkt
  have hread : readBL (addSourceToTargets source ts B) k = readBL B k := by
    unfold readBL
    rw [h1]
  rw [cleanup_foldl_aGet source allNew _ _ k hka,
    if_neg (fun hc => hsrc (hread ▸ hc.2)), h1]

-- ---------------------------------------------------------------------------
-- remove_doc_from_backlinks
-- (src/crates/y-sweet-core/src/link_indexer.rs lines 461-492)
-- ---------------------------------------------------------------------------

/-- Loop body of `remove_doc_from_backlinks` for one key of one folder: strip
the source uuid (deleting the key when the array becomes empty) and bump the
modified-array counter when the array contained it. -/
def removeStep (source : Str) (acc : List (Str × List Str) × Nat) (k : Str) :
    List (Str × List Str) × Nat :=
  (cleanupKey source [] acc.1 k,
   acc.2 + (if source ∈ readBL acc.1 k then 1 else 0))

/-- Per-folder part of `remove_doc_from_backlinks`: walk all keys of the
backlinks map, stripping the source uuid and counting modified arrays. -/
def removeFolderBL (source : Str) (B : List (Str × List Str)) :
    List (Str × List Str) × Nat :=
  (B.map Prod.fst).foldl (removeStep source) (B, 0)

/-- Port of `remove_doc_from_backlinks`: strip the source uuid from every
folder's backlinks and return the updated folders with the total count of
modified arrays (the per-folder work is independent, so the sequential loop is
modelled folder-wise). -/
def remove_doc_from_backlinks (source : Str) (folders : List FolderDoc) :
    List FolderDoc × Nat :=
  (folders.map (fun f => { f with backlinks := (removeFolderBL source f.backlinks).1 }),
   (folders.map (fun f => (removeFolderBL source f.backlinks).2)).sum)

theorem removeFold_fst (source : Str) :
    ∀ (ks : List Str) (B : List (Str × List Str)) (n : Nat),
      ((ks.foldl (removeStep source) (B, n)).1) =
        ks.foldl (cleanupKey source []) B := by
  intro ks
  induction ks with
  | nil => intro B n; rfl
  | cons k ks ih =>
    intro B n
    rw [List.foldl_cons, List.foldl_cons]
    exact ih _ _

theorem removeFolderBL_aGet (source : Str) (B : List (Str × List Str)) (k : Str) :
    aGet (removeFolderBL source B).1 k =
      (match aGet B k with
       | some cur => if source ∈ cur then strippedVal source cur else some cur
       | none => none) := by
  unfold removeFolderBL
  rw [removeFold_fst, cleanup_foldl_aGet source [] _ _ k (by simp)]
  cases hg : aGet B k with
  | none =>
    have hnm : source ∉ readBL B k := by
      unfold readBL
      rw [hg]
      simp
    rw [if_neg (fun hc => hnm hc.2)]
  | some cur =>
    have hread : readBL B k = cur := by
      unfold readBL
      rw [hg]
      rfl
    by_cases hsrc : source ∈ cur
    · have hmem : k ∈ B.map Prod.fst := aGet_some_mem_keys hg
      rw [if_pos ⟨hmem, hread ▸ hsrc⟩, hread]
      show strippedVal source cur = if source ∈ cur then strippedVal source cur else some cur
      rw [if_pos hsrc]
    · rw [if_neg (fun hc => hsrc (hread ▸ hc.2))]
      show some cur = if source ∈ cur then strippedVal source cur else some cur
      rw [if_neg hsrc]

theorem removeFolderBL_no_source (source : Str) (B : List (Str × List Str)) (k : Str) :
    source ∉ readBL (removeFolderBL source B).1 k := by
  unfold readBL
  rw [removeFolderBL_aGet]
  cases hg : aGet B k with
  | none => simp
  | some cur =>
    by_cases hsrc : source ∈ cur
    · simp only [if_pos hsrc]
      exact source_not_mem_strippedVal source cur
    · simp only [if_neg hsrc]
      exact hsrc

theorem removeFold_noop (source : Str) :
    ∀ (ks : List Str) (B : List (Str × List Str)) (n : Nat),
      (∀ k, source ∉ readBL B k) →
      ks.foldl (removeStep source) (B, n) = (B, n) := by
  intro ks
  induction ks with
  | nil => intro B n _; rfl
  | cons k ks ih =>
    intro B n h
    rw [List.foldl_cons]
    unfold removeStep
    rw [cleanupKey_self_nosrc source [] B k (h k), if_neg (h k)]
    exact ih B n h

theorem removeFolderBL_idem (source : Str) (B : List (Str × List Str)) :
    removeFolderBL source (removeFolderBL source B).1 =
      ((removeFolderBL source B).1, 0) :=
  removeFold_noop source _ _ 0 (fun k => removeFolderBL_no_source source B k)

theorem removeFold_cnt (source : Str) :
    ∀ (ks : List Str) (B : List (Str × List Str)) (n : Nat), ks.Nodup →
      ((ks.foldl (removeStep source) (B, n)).2) =
        n + (ks.filter (fun k => source ∈ readBL B k)).length := by
  intro ks
  induction ks with
  | nil => intro B n _; simp
  | cons k ks ih =>
    intro B n hnd
    have hnd2 := List.nodup_cons.mp hnd
    have hstep : removeStep source (B, n) k =
        (cleanupKey source [] B k, n + (if source ∈ readBL B k then 1 else 0)) := rfl
    rw [List.foldl_cons, hstep, ih _ _ hnd2.2]
    have hfc : ∀ x ∈ ks,
        (decide (source ∈ readBL (cleanupKey source [] B k) x)) =
          (decide (source ∈ readBL B x)) := by
      intro x hx
      have hxk : x ≠ k := fun hc => hnd2.1 (hc ▸ hx)
      have hrd : readBL (cleanupKey source [] B k) x = readBL B x := by
        unfold readBL
        rw [cleanupKey_pres source [] B k x hxk]
      rw [hrd]
    rw [List.filter_congr hfc, List.filter_cons]
    by_cases hsrc : source ∈ readBL B k
    · rw [if_pos hsrc]
      simp only [hsrc, decide_True, if_true, List.length_cons]
      omega
    · rw [if_neg hsrc]
      simp only [hsrc, decide_False]
      simp

theorem aRemove_sublist {α : Type} (m : List (Str × α)) (k : Str) :
    List.Sublist (aRemove m k) m := by
  induction m with
  | nil => simp [aRemove]
  | cons p ps ih =>
    rw [aRemove_cons]
    split_ifs with h
    · exact ih.cons p
    · exact ih.cons₂ p

theorem cleanupKey_keys_nodup (source : Str) (skip : List Str)
    (B : List (Str × List Str)) (k : Str) (hnd : (B.map Prod.fst).Nodup) :
    ((cleanupKey source skip B k).map Prod.fst).Nodup := by
  unfold cleanupKey
  split_ifs with h1 h2 h3
  · exact hnd
  · exact ((aRemove_sublist B k).map Prod.fst).nodup hnd
  · exact aInsert_keys_nodup k _ hnd
  · exact hnd

theorem cleanup_foldl_keys_nodup (source : Str) (skip : List Str) :
    ∀ (ks : List Str) (B : List (Str × List Str)),
      (B.map Prod.fst).Nodup →
      ((ks.foldl (cleanupKey source skip) B).map Prod.fst).Nodup := by
  intro ks
  induction ks with
  | nil => intro B h; exact h
  | cons k ks ih =>
    intro B h
    rw [List.foldl_cons]
    exact ih _ (cleanupKey_keys_nodup source skip B k h)

theorem removeFolderBL_keys_nodup (source : Str) (B : List (Str × List Str))
    (hnd : (B.map Prod.fst).Nodup) :
    ((removeFolderBL source B).1.map Prod.fst).Nodup := by
  unfold removeFolderBL
  rw [removeFold_fst]
  exact cleanup_foldl_keys_nodup source [] _ B hnd

theorem keysFilter_eq (source : Str) :
    ∀ (B : List (Str × List Str)), (B.map Prod.fst).Nodup →
      ((B.map Prod.fst).filter (fun k => source ∈ readBL B k)).length =
        (B.filter (fun p => source ∈ p.2)).length := by
  intro B
  induction B with
  | nil => intro _; rfl
  | cons p ps ih =>
    intro hnd
    rcases p with ⟨a, b⟩
    rw [List.map_cons] at hnd
    have hnd2 := List.nodup_cons.mp hnd
    have hra : readBL ((a, b) :: ps) a = b := by
      unfold readBL
      rw [aGet_cons, if_pos rfl]
      rfl
    have hfc : ∀ x ∈ ps.map Prod.fst,
        (decide (source ∈ readBL ((a, b) :: ps) x)) = (decide (source ∈ readBL ps x)) := by
      intro x hx
      have hax : ¬ (a, b).1 = x := fun hc => hnd2.1 (hc ▸ hx)
      have : readBL ((a, b) :: ps) x = readBL ps x := by
        unfold readBL
        rw [aGet_cons, if_neg hax]
      rw [this]
    rw [List.map_cons, List.filter_cons, List.filter_cons, List.filter_congr hfc]
    by_cases hsrc : source ∈ b
    · have h1 : (decide (source ∈ readBL ((a, b) :: ps) a)) = true := by
        rw [hra]
        exact decide_eq_true hsrc
      have h2 : (decide (source ∈ ((a, b) : Str × List Str).2)) = true :=
        decide_eq_true hsrc
      rw [h1, h2, if_pos rfl, if_pos rfl, List.length_cons, List.length_cons,
        ih hnd2.2]
    · have h1 : (decide (source ∈ readBL ((a, b) :: ps) a)) = false := by
        rw [hra]
        exact decide_eq_false hsrc
      have h2 : (decide (source ∈ ((a, b) : Str × List Str).2)) = false :=
        decide_eq_false hsrc
      rw [h1, h2]
      simp only [Bool.false_eq_true, if_false]
      exact ih hnd2.2

-- ---------------------------------------------------------------------------
-- Virtual-tree construction and the core indexing function
-- (src/crates/y-sweet-core/src/link_indexer.rs lines 247-275, 369-452)
-- ---------------------------------------------------------------------------

/-- Entries contributed by one folder to the virtual tree: one entry per
filemeta record carrying an `id`, with virtual path `/{folder_name}{path}` and
the entry type defaulting to `"unknown"`. -/
def folderEntries (fi : Nat) (folder : FolderDoc) (name : Str) : List VirtualEntry :=
  match folder.filemeta with
  | none => []
  | some fm =>
    fm.filterMap (fun pv =>
      match pv.2.id with
      | some i => some ⟨'/' :: (name ++ pv.1), (pv.2.ftype).getD ("unknown".data), i, fi⟩
      | none => none)

/-- Port of `build_virtual_entries` over the folder list and the parallel list
of folder names. -/
def build_virtual_entries (folders : List FolderDoc) (names : List Str) :
    List VirtualEntry :=
  ((folders.zip names).enum).flatMap (fun p => folderEntries p.1 p.2.1 p.2.2)

/-- Link resolution performed by `index_content_into_folders_from_text`: the
source's virtual path is the path of the first entry carrying its uuid, and
each wikilink name resolves (or is silently dropped) in the virtual tree,
yielding `(target uuid, folder index)` pairs. -/
def resolvedTargets (source : Str) (linkNames : List Str) (folders : List FolderDoc)
    (names : List Str) : List (Str × Nat) :=
  let entries := build_virtual_entries folders names
  let svp := (entries.find? (fun e => e.id == source)).map (fun e => e.virtual_path)
  linkNames.filterMap
    (fun n => (resolve_in_virtual_tree n svp entries).map (fun e => (e.id, e.folder_idx)))

/-- Port of `index_content_into_folders_from_text`: resolve all wikilinks, group
the resolved targets by owning folder, and diff-update each folder's
`backlinks_v0` (phase 2 skips keys in the global resolved set). -/
def index_content_into_folders_from_text (source : Str) (linkNames : List Str)
    (folders : List FolderDoc) (names : List Str) : List FolderDoc :=
  let resolved := resolvedTargets source linkNames folders names
  let allNew : List Str := resolved.map Prod.fst
  (folders.enum).map
    (fun p =>
      { p.2 with
        backlinks := updateFolderBacklinks source
          ((resolved.filter (fun r => r.2 = p.1)).map Prod.fst) allNew p.2.backlinks })

theorem index_getElem (source : Str) (linkNames : List Str) (folders : List FolderDoc)
    (names : List Str) (i : Nat) :
    (index_content_into_folders_from_text source linkNames folders names)[i]? =
      (folders[i]?).map
        (fun f =>
          { f with
            backlinks := updateFolderBacklinks source
              (((resolvedTargets source linkNames folders names).filter
                  (fun r => r.2 = i)).map Prod.fst)
              ((resolvedTargets source linkNames folders names).map Prod.fst)
              f.backlinks }) := by
  unfold index_content_into_folders_from_text
  rw [List.getElem?_map, List.getElem?_enum]
  cases folders[i]? <;> rfl

-- ---------------------------------------------------------------------------
-- C7
-- ---------------------------------------------------------------------------

/-- C7 counterexample: a pre-existing empty backlinks array (key `"t"` mapped
to `[]`) is untouched by `remove_doc_from_backlinks`, so an empty entry can
remain afterwards, refuting the claim's parenthetical that afterwards every
remaining backlinks entry is non-empty. -/
theorem c7_counterexample :
    (remove_doc_from_backlinks ("s".data) [⟨none, none, [("t".data, [])]⟩]).1 =
      [⟨none, none, [("t".data, [])]⟩] ∧
    (remove_doc_from_backlinks ("s".data) [⟨none, none, [("t".data, [])]⟩]).2 = 0 ∧
    aGet (FolderDoc.mk none none [("t".data, [])]).backlinks ("t".data) = some [] := by
  refine ⟨by rfl, by rfl, by rfl⟩

/-- C7 (amended): `remove_doc_from_backlinks` strips the source uuid from every
array it appears in (deleting a key whose array becomes empty), leaves all
other keys untouched, never modifies `filemeta` or `folder_config`, returns the
number of arrays it modified, and is idempotent.  If every backlinks entry was
non-empty beforehand, every remaining entry is non-empty afterwards (the
unconditional version of that last clause is refuted by `c7_counterexample`:
an already-empty array not containing the source survives).  Backlinks maps
are assumed to have unique keys, as `Y.Map` guarantees. -/
theorem c7_remove_doc_from_backlinks (source : Str) (folders : List FolderDoc)
    (hnd : ∀ f ∈ folders, (f.backlinks.map Prod.fst).Nodup) :
    (remove_doc_from_backlinks source folders).1.length = folders.length ∧
    (∀ (i : Nat) (f0 f : FolderDoc), folders[i]? = some f0 →
      (remove_doc_from_backlinks source folders).1[i]? = some f →
      f.filemeta = f0.filemeta ∧ f.folder_config_name = f0.folder_config_name ∧
      ∀ k, aGet f.backlinks k =
        (match aGet f0.backlinks k with
         | some cur => if source ∈ cur then strippedVal source cur else some cur
         | none => none)) ∧
    (remove_doc_from_backlinks source folders).2 =
      (folders.map (fun f0 => (f0.backlinks.filter (fun p => source ∈ p.2)).length)).sum ∧
    ((∀ f0 ∈ folders, ∀ p ∈ f0.backlinks, p.2 ≠ []) →
      ∀ f ∈ (remove_doc_from_backlinks source folders).1, ∀ p ∈ f.backlinks, p.2 ≠ []) ∧
    remove_doc_from_backlinks source (remove_doc_from_backlinks source folders).1 =
      ((remove_doc_from_backlinks source folders).1, 0) := by
  have hfst : (remove_doc_from_backlinks source folders).1 =
      folders.map (fun f => { f with backlinks := (removeFolderBL source f.backlinks).1 }) := rfl
  have hsnd : (remove_doc_from_backlinks source folders).2 =
      (folders.map (fun f => (removeFolderBL source f.backlinks).2)).sum := rfl
  refine ⟨by rw [hfst]; simp, ?_, ?_, ?_, ?_⟩
  · intro i f0 f h0 h1
    rw [hfst, List.getElem?_map, h0] at h1
    simp only [Option.map_some'] at h1
    cases h1
    exact ⟨rfl, rfl, fun k => removeFolderBL_aGet source f0.backlinks k⟩
  · rw [hsnd]
    congr 1
    apply List.map_congr_left
    intro f0 hf0
    show (removeFolderBL source f0.backlinks).2 = _
    unfold removeFolderBL
    rw [removeFold_cnt source _ _ 0 (hnd f0 hf0),
      keysFilter_eq source f0.backlinks (hnd f0 hf0), Nat.zero_add]
  · intro hne f hf p hp
    rw [hfst] at hf
    rcases List.mem_map.mp hf with ⟨f0, hf0, hmap⟩
    subst hmap
    have hndout := removeFolderBL_keys_nodup source f0.backlinks (hnd f0 hf0)
    have hg : aGet (removeFolderBL source f0.backlinks).1 p.1 = some p.2 :=
      mem_aGet hndout (show (p.1, p.2) ∈ _ by rw [Prod.mk.eta]; exact hp)
    rw [removeFolderBL_aGet] at hg
    cases hg0 : aGet f0.backlinks p.1 with
    | none => rw [hg0] at hg; simp at hg
    | some cur =>
      rw [hg0] at hg
      have hg2 : (if source ∈ cur then strippedVal source cur else some cur) = some p.2 := hg
      have hcur : (p.1, cur) ∈ f0.backlinks := aGet_eq_some_mem hg0
      by_cases hsrc : source ∈ cur
      · rw [if_pos hsrc] at hg2
        unfold strippedVal at hg2
        by_cases hemp : (cur.filter (fun s => s ≠ source)) = []
        · rw [if_pos hemp] at hg2
          exact absurd hg2 (by simp)
        · rw [if_neg hemp] at hg2
          have hv := Option.some.inj hg2
          intro hc
          rw [hc] at hv
          exact hemp hv
      · rw [if_neg hsrc] at hg2
        have hv := Option.some.inj hg2
        rw [← hv]
        exact hne f0 hf0 (p.1, cur) hcur
  · have hout1 : (remove_doc_from_backlinks source
        (remove_doc_from_backlinks source folders).1).1 =
        (remove_doc_from_backlinks source folders).1 := by
      rw [hfst]
      show List.map _ _ = _
      rw [List.map_map]
      apply List.map_congr_left
      intro f0 _
      have hi := congrArg Prod.fst (removeFolderBL_idem source f0.backlinks)
      simp only [Function.comp_apply]
      show FolderDoc.mk _ _ _ = FolderDoc.mk _ _ _
      rw [hi]
    have hout2 : (remove_doc_from_backlinks source
        (remove_doc_from_backlinks source folders).1).2 = 0 := by
      rw [hfst]
      show (List.map _ (List.map _ _)).sum = 0
      rw [List.map_map]
      apply List.sum_eq_zero
      intro x hx
      rcases List.mem_map.mp hx with ⟨f0, _, hmap⟩
      rw [← hmap]
      simp only [Function.comp_apply]
      exact congrArg Prod.snd (removeFolderBL_idem source f0.backlinks)
    exact Prod.ext hout1 hout2

/-- C7 witness: on a folder whose only array is `["s", "u"]` under key `t`,
removing `s` reports exactly the one modified array. -/
theorem c7_witness :
    (remove_doc_from_backlinks ("s".data)
        [⟨none, none, [("t".data, ["s".data, "u".data])]⟩]).2 =
      (([⟨none, none, [("t".data, ["s".data, "u".data])]⟩] : List FolderDoc).map
        (fun f0 => (f0.backlinks.filter (fun p => "s".data ∈ p.2)).length)).sum :=
  (c7_remove_doc_from_backlinks ("s".data) _ (by decide)).2.2.1

-- ---------------------------------------------------------------------------
-- C1 and C10
-- ---------------------------------------------------------------------------

/-- C1 counterexample: folder 0 holds a stale backlink `backlinks[t] = [s]`
while `t`'s filemeta entry lives in folder 1; indexing `s` with a link that
resolves to `t` in folder 1 leaves folder 0's entry untouched, because the
cleanup pass skips every key in the global resolved-target set — although
`(t, 0)` is not a resolved target for folder 0, refuting the claim's
per-folder cleanup condition. -/
theorem c1_counterexample :
    resolvedTargets ("s".data) [("B/T".data)]
        [⟨some [], none, [("t".data, ["s".data])]⟩,
         ⟨some [("/T.md".data, ⟨some ("t".data), some ("markdown".data)⟩)], none, []⟩]
        ["A".data, "B".data] = [("t".data, 1)] ∧
    (index_content_into_folders_from_text ("s".data) [("B/T".data)]
        [⟨some [], none, [("t".data, ["s".data])]⟩,
         ⟨some [("/T.md".data, ⟨some ("t".data), some ("markdown".data)⟩)], none, []⟩]
        ["A".data, "B".data])[0]? =
      some ⟨some [], none, [("t".data, ["s".data])]⟩ := by
  refine ⟨by rfl, by rfl⟩

/-- C1 (amended): after `index_content_into_folders_from_text` processes source
`S`, (a) for every resolved target `(T, fi)` the owning folder `fi` has
`S ∈ backlinks[T]`, and (b) in every folder, every key `K` outside the set of
targets resolved across **all** folders in this call (the per-folder version of
this cleanup condition is refuted by `c1_counterexample`) whose array contained
`S` has `S` removed, the key being deleted entirely when the remaining array is
empty. -/
theorem c1_index_content_into_folders_from_text (source : Str) (linkNames : List Str)
    (folders : List FolderDoc) (names : List Str) :
    (∀ (t : Str) (fi : Nat) (f : FolderDoc),
      (t, fi) ∈ resolvedTargets source linkNames folders names →
      (index_content_into_folders_from_text source linkNames folders names)[fi]? = some f →
      source ∈ readBL f.backlinks t) ∧
    (∀ (i : Nat) (f0 f : FolderDoc) (k : Str), folders[i]? = some f0 →
      (index_content_into_folders_from_text source linkNames folders names)[i]? = some f →
      k ∉ (resolvedTargets source linkNames folders names).map Prod.fst →
      source ∈ readBL f0.backlinks k →
      aGet f.backlinks k = strippedVal source (readBL f0.backlinks k)) := by
  constructor
  · intro t fi f hres hout
    rw [index_getElem] at hout
    cases h0 : folders[fi]? with
    | none => rw [h0] at hout; exact absurd hout (by simp)
    | some f0 =>
      rw [h0] at hout
      simp only [Option.map_some'] at hout
      cases hout
      apply updateFolderBacklinks_target
      · exact List.mem_map.mpr
          ⟨(t, fi), List.mem_filter.mpr ⟨hres, by simp⟩, rfl⟩
      · exact List.mem_map.mpr ⟨(t, fi), hres, rfl⟩
  · intro i f0 f k h0 hout hk hsrc
    rw [index_getElem, h0] at hout
    simp only [Option.map_some'] at hout
    cases hout
    apply updateFolderBacklinks_cleanup
    · exact hk
    · intro x hx
      rcases List.mem_map.mp hx with ⟨r, hr, hxr⟩
      exact List.mem_map.mpr ⟨r, List.mem_of_mem_filter hr, hxr⟩
    · exact hsrc

/-- C1 witness: indexing `/Notes.md` (uuid `n`) containing `[[Ideas]]` puts `n`
into `backlinks[i]` of the folder owning `/Ideas.md` (uuid `i`). -/
theorem c1_witness :
    ("n".data) ∈ readBL
      (FolderDoc.mk
        (some [("/Notes.md".data, ⟨some ("n".data), some ("markdown".data)⟩),
               ("/Ideas.md".data, ⟨some ("i".data), some ("markdown".data)⟩)])
        none [("i".data, ["n".data])]).backlinks ("i".data) := by
  exact (c1_index_content_into_folders_from_text ("n".data) [("Ideas".data)]
      [⟨some [("/Notes.md".data, ⟨some ("n".data), some ("markdown".data)⟩),
             ("/Ideas.md".data, ⟨some ("i".data), some ("markdown".data)⟩)], none, []⟩]
      [("Lens".data)]).1 ("i".data) 0 _ (by decide) (by rfl)

/-- C10: the indexer's per-folder update is frame-preserving — it never touches
`filemeta_v0` or `folder_config`, and every backlinks key whose array does not
contain the source and that is not among the targets resolved by this call
keeps its array value unchanged. -/
theorem c10_index_frame (source : Str) (linkNames : List Str)
    (folders : List FolderDoc) (names : List Str) :
    ∀ (i : Nat) (f0 f : FolderDoc), folders[i]? = some f0 →
      (index_content_into_folders_from_text source linkNames folders names)[i]? = some f →
      f.filemeta = f0.filemeta ∧ f.folder_config_name = f0.folder_config_name ∧
      (∀ k, source ∉ readBL f0.backlinks k →
        k ∉ (resolvedTargets source linkNames folders names).map Prod.fst →
        aGet f.backlinks k = aGet f0.backlinks k) := by
  intro i f0 f h0 hout
  rw [index_getElem, h0] at hout
  simp only [Option.map_some'] at hout
  cases hout
  refine ⟨rfl, rfl, ?_⟩
  intro k hsrc hk
  apply updateFolderBacklinks_frame
  · exact hk
  · intro x hx
    rcases List.mem_map.mp hx with ⟨r, hr, hxr⟩
    exact List.mem_map.mpr ⟨r, List.mem_of_mem_filter hr, hxr⟩
  · exact hsrc

/-- C10 witness: indexing leaves filemeta, folder config and an unrelated
backlinks key untouched on a concrete folder. -/
theorem c10_witness :
    aGet (FolderDoc.mk
        (some [("/Notes.md".data, ⟨some ("n".data), some ("markdown".data)⟩),
               ("/Ideas.md".data, ⟨some ("i".data), some ("markdown".data)⟩)])
        none [("z".data, ["q".data]), ("i".data, ["n".data])]).backlinks
      ("z".data) =
    aGet (FolderDoc.mk
        (some [("/Notes.md".data, ⟨some ("n".data), some ("markdown".data)⟩),
               ("/Ideas.md".data, ⟨some ("i".data), some ("markdown".data)⟩)])
        none [("z".data, ["q".data])]).backlinks ("z".data) := by
  exact ((c10_index_frame ("n".data) [("Ideas".data)]
      [⟨some [("/Notes.md".data, ⟨some ("n".data), some ("markdown".data)⟩),
             ("/Ideas.md".data, ⟨some ("i".data), some ("markdown".data)⟩)], none,
        [("z".data, ["q".data])]⟩]
      [("Lens".data)]) 0 _ _ (by rfl) (by rfl)).2.2 ("z".data) (by decide) (by decide)

-- ---------------------------------------------------------------------------
-- Wikilink scanner (src/crates/y-sweet-core/src/link_parser.rs lines 259-476)
-- ---------------------------------------------------------------------------

/-- The backtick character (code point 96). -/
def btick : Char := Char.ofNat 96

/-- Match of `WIKILINK_RE` (`\[\[([^\]]+)\]\]`) at the head of the string:
two open brackets, a non-empty run of non-`]` characters, then two close
brackets.  Returns the capture and the remainder after the match. -/
def wlMatch? (s : Str) : Option (Str × Str) :=
  match s with
  | a :: b :: t =>
    if a = '[' ∧ b = '[' then
      match t.dropWhile (fun c => c ≠ ']') with
      | c1 :: c2 :: rest =>
        if c1 = ']' ∧ c2 = ']' ∧ t.takeWhile (fun c => c ≠ ']') ≠ [] then
          some (t.takeWhile (fun c => c ≠ ']'), rest)
        else none
      | _ => none
    else none
  | _ => none

/-- Scan for successive non-overlapping leftmost wikilink matches
(`captures_iter`), tracking the byte position of each match start; `fuel`
bounds the recursion and is instantiated with the string length (each step
consumes at least one character). -/
def wlScanF : Nat → Str → Nat → List (Nat × Str)
  | 0, _, _ => []
  | _ + 1, [], _ => []
  | fuel + 1, c :: cs, pos =>
    match wlMatch? (c :: cs) with
    | some (content, rest) =>
      (pos, content) :: wlScanF fuel rest (pos + utf8Len content + 4)
    | none => wlScanF fuel cs (pos + c.utf8Size)

/-- Wikilink matches of a string with byte start positions. -/
def wlScan (s : Str) (pos : Nat) : List (Nat × Str) := wlScanF s.length s pos

/-- First occurrence of three consecutive `f` characters: the part before, and
the part after the triple (the lazy `.*?` of `FENCED_CODE_RE` stops at the
first closing fence). -/
def splitAtTriple (f : Char) : Str → Option (Str × Str)
  | [] => none
  | a :: rest =>
    if a = f ∧ rest.take 2 = [f, f] then some ([], rest.drop 2)
    else
      match splitAtTriple f rest with
      | some (pre, post) => some (a :: pre, post)
      | none => none

/-- Match of one alternation branch of `FENCED_CODE_RE`
(`fff[^\n]*\n.*?fff`, dot matching newline) at the head of the string. -/
def fenceAt (f : Char) (s : Str) : Option (Str × Str) :=
  match s with
  | a :: b :: c :: t =>
    if a = f ∧ b = f ∧ c = f then
      match t.dropWhile (fun ch => ch ≠ '\n') with
      | d :: body =>
        if d = '\n' then
          match splitAtTriple f body with
          | some (pre, post) =>
            some (f :: f :: f :: ((t.takeWhile (fun ch => ch ≠ '\n')) ++
              '\n' :: (pre ++ [f, f, f])), post)
          | none => none
        else none
      | [] => none
    else none
  | _ => none

/-- Match of `FENCED_CODE_RE` at the head of the string: the backtick branch
first, then the tilde branch. -/
def fencedMatch? (s : Str) : Option (Str × Str) :=
  match fenceAt btick s with
  | some r => some r
  | none => fenceAt '~' s

/-- Match of `INLINE_CODE_RE` at the head of the string: a backtick, a possibly
empty run of non-backticks, and a closing backtick. -/
def inlineMatch? (s : Str) : Option (Str × Str) :=
  match s with
  | a :: t =>
    if a = btick then
      match t.dropWhile (fun c => c ≠ btick) with
      | b :: rest =>
        if b = btick then
          some (btick :: ((t.takeWhile (fun c => c ≠ btick)) ++ [btick]), rest)
        else none
      | [] => none
    else none
  | _ => none

/-- Generic `Regex::replace_all(..., "")`: drop every leftmost non-overlapping
match of `m`, keep everything else. -/
def scanStripF (m : Str → Option (Str × Str)) : Nat → Str → Str
  | 0, _ => []
  | _ + 1, [] => []
  | fuel + 1, c :: cs =>
    match m (c :: cs) with
    | some (_, rest) => scanStripF m fuel rest
    | none => c :: scanStripF m fuel cs

/-- Generic `Regex::find_iter`: byte ranges `(start, end)` of every leftmost
non-overlapping match of `m`. -/
def scanRangesF (m : Str → Option (Str × Str)) : Nat → Str → Nat → List (Nat × Nat)
  | 0, _, _ => []
  | _ + 1, [], _ => []
  | fuel + 1, c :: cs, pos =>
    match m (c :: cs) with
    | some (mt, rest) =>
      (pos, pos + utf8Len mt) :: scanRangesF m fuel rest (pos + utf8Len mt)
    | none => scanRangesF m fuel cs (pos + c.utf8Size)

/-- Fenced-code replace-all over a string. -/
def stripFenced (s : Str) : Str := scanStripF fencedMatch? s.length s

/-- Inline-code replace-all over a string. -/
def stripInline (s : Str) : Str := scanStripF inlineMatch? s.length s

/-- Byte ranges of fenced-code matches. -/
def fencedRanges (s : Str) : List (Nat × Nat) := scanRangesF fencedMatch? s.length s 0

/-- Byte ranges of inline-code matches. -/
def inlineRanges (s : Str) : List (Nat × Nat) := scanRangesF inlineMatch? s.length s 0

/-- Port of `build_excluded_ranges`: fenced ranges then inline ranges, both
computed on the original markdown. -/
def build_excluded_ranges (s : Str) : List (Nat × Nat) :=
  fencedRanges s ++ inlineRanges s

/-- Port of `is_excluded`: the byte offset falls inside some excluded range. -/
def isExcluded (off : Nat) (ranges : List (Nat × Nat)) : Bool :=
  ranges.any (fun r => r.1 ≤ off ∧ off < r.2)

/-- A wikilink occurrence: trimmed page name with the byte span of the
replaceable portion (from after `[[` up to the first `#`, `|` or `]]`). -/
structure WikilinkOccurrence where
  name : Str
  name_start : Nat
  name_len : Nat
deriving DecidableEq

/-- Occurrence built from one wikilink match of `extract_wikilink_occurrences`:
skipped when the match start is excluded, when the whole content trims to
nothing, or when the part before the first `#` or `|` trims to nothing. -/
def occFromMatch (E : Nat → Bool) (pos : Nat) (content : Str) :
    Option WikilinkOccurrence :=
  if E pos then none
  else if trimStr content = [] then none
  else if trimStr (content.takeWhile (fun c => c ≠ '#' ∧ c ≠ '|')) = [] then none
  else
    some ⟨trimStr (content.takeWhile (fun c => c ≠ '#' ∧ c ≠ '|')), pos + 2,
      utf8Len (content.takeWhile (fun c => c ≠ '#' ∧ c ≠ '|'))⟩

/-- Port of `extract_wikilink_occurrences`: scan the original markdown,
discarding matches whose opening `[[` falls inside an excluded range. -/
def extract_wikilink_occurrences (markdown : Str) : List WikilinkOccurrence :=
  (wlScan markdown 0).filterMap
    (fun pc => occFromMatch (fun p => isExcluded p (build_excluded_ranges markdown))
      pc.1 pc.2)

/-- Name extracted from one wikilink content by `extract_wikilinks`: skip if
the content trims to nothing, strip the alias (`|`) and then the anchor (`#`),
trim, and skip if empty. -/
def nameFromContent (content : Str) : Option Str :=
  if trimStr content = [] then none
  else if trimStr ((content.takeWhile (fun c => c ≠ '|')).takeWhile (fun c => c ≠ '#')) = []
    then none
  else some (trimStr ((content.takeWhile (fun c => c ≠ '|')).takeWhile (fun c => c ≠ '#')))

/-- Port of `extract_wikilinks`: strip fenced code, then inline code, then scan
the stripped string for wikilinks. -/
def extract_wikilinks (markdown : Str) : List Str :=
  (wlScan (stripInline (stripFenced markdown)) 0).filterMap
    (fun pc => nameFromContent pc.2)

theorem scanRanges_nil_strip_id (m : Str → Option (Str × Str)) :
    ∀ (fuel : Nat) (s : Str) (pos : Nat), s.length ≤ fuel →
      scanRangesF m fuel s pos = [] → scanStripF m fuel s = s := by
  intro fuel
  induction fuel with
  | zero =>
    intro s pos hle _
    have : s = [] := List.length_eq_zero.mp (Nat.le_zero.mp hle)
    rw [this]
    rfl
  | succ fuel ih =>
    intro s pos hle hr
    cases s with
    | nil => rfl
    | cons c cs =>
      cases hm : m (c :: cs) with
      | some r =>
        rw [scanRangesF, hm] at hr
        exact absurd hr (by simp)
      | none =>
        rw [scanRangesF, hm] at hr
        rw [scanStripF, hm]
        rw [ih cs (pos + c.utf8Size) (by simpa using Nat.lt_succ_iff.mp hle) hr]

theorem span_alias_anchor (content : Str) :
    ((content.takeWhile (fun c => c ≠ '|')).takeWhile (fun c => c ≠ '#')) =
      content.takeWhile (fun c => c ≠ '#' ∧ c ≠ '|') := by
  rw [List.takeWhile_takeWhile]
  congr 1
  funext c
  by_cases h1 : c = '#' <;> by_cases h2 : c = '|' <;> simp [h1, h2]

theorem occ_name_eq (E : Nat → Bool) (pos : Nat) (content : Str)
    (hE : E pos = false) :
    (occFromMatch E pos content).map (fun o => o.name) = nameFromContent content := by
  unfold occFromMatch nameFromContent
  rw [hE, span_alias_anchor]
  simp only [Bool.false_eq_true, if_false]
  split_ifs <;> rfl

theorem occ_names (E : Nat → Bool) (hE : ∀ p, E p = false) :
    ∀ l : List (Nat × Str),
      (l.filterMap (fun pc => occFromMatch E pc.1 pc.2)).map (fun o => o.name) =
        l.filterMap (fun pc => nameFromContent pc.2) := by
  intro l
  induction l with
  | nil => rfl
  | cons pc rest ih =>
    rw [List.filterMap_cons, List.filterMap_cons]
    have hpt := occ_name_eq E pc.1 pc.2 (hE pc.1)
    cases ho : occFromMatch E pc.1 pc.2 with
    | none =>
      rw [ho] at hpt
      simp only [Option.map_none'] at hpt
      rw [← hpt]
      exact ih
    | some o =>
      rw [ho] at hpt
      simp only [Option.map_some'] at hpt
      rw [← hpt, List.map_cons, ih]

-- ---------------------------------------------------------------------------
-- C6
-- ---------------------------------------------------------------------------

/-- C6 counterexample: for the markdown `[[` + backtick + `x` + backtick + `]]`
the inline-code span sits inside the wikilink, so `extract_wikilinks` (which
strips code before scanning) finds nothing, while
`extract_wikilink_occurrences` (which only discards matches whose `[[` starts
inside an excluded range) reports one occurrence — the projection equality
claimed for all markdown fails here. -/
theorem c6_counterexample :
    extract_wikilinks ("[[`x`]]".data) = [] ∧
    (extract_wikilink_occurrences ("[[`x`]]".data)).map (fun o => o.name) =
      [("`x`".data)] := by
  refine ⟨by rfl, by rfl⟩

/-- C6 (amended): for every markdown string with no code spans (no fenced-code
or inline-code match anywhere, i.e. `build_excluded_ranges` is empty),
`extract_wikilinks` equals `extract_wikilink_occurrences` projected to the
name field, element for element and in order.  (The unrestricted claim fails
when a code span overlaps a wikilink, see `c6_counterexample`.) -/
theorem c6_extract_projection (markdown : Str)
    (h : build_excluded_ranges markdown = []) :
    extract_wikilinks markdown =
      (extract_wikilink_occurrences markdown).map (fun o => o.name) := by
  have hparts := List.append_eq_nil.mp h
  have hsf : stripFenced markdown = markdown :=
    scanRanges_nil_strip_id fencedMatch? markdown.length markdown 0 (Nat.le_refl _)
      hparts.1
  have hsi : stripInline markdown = markdown :=
    scanRanges_nil_strip_id inlineMatch? markdown.length markdown 0 (Nat.le_refl _)
      hparts.2
  unfold extract_wikilinks extract_wikilink_occurrences
  rw [hsf, hsi, h]
  exact (occ_names _ (fun p => rfl) (wlScan markdown 0)).symm

/-- C6 witness: on markdown with no code spans the two extraction functions
agree. -/
theorem c6_witness :
    extract_wikilinks ("[[A]] and [[B#s|t]]".data) =
      (extract_wikilink_occurrences ("[[A]] and [[B#s|t]]".data)).map
        (fun o => o.name) :=
  c6_extract_projection ("[[A]] and [[B#s|t]]".data) (by rfl)

-- ---------------------------------------------------------------------------
-- C3 (src/crates/y-sweet-core/src/link_parser.rs lines 389-434 and the edit
-- application in link_indexer.rs lines 740-801)
-- ---------------------------------------------------------------------------

/-- A text edit: replace `remove_len` bytes at byte `offset` with
`insert_text`. -/
structure TextEdit where
  offset : Nat
  remove_len : Nat
  insert_text : Str
deriving DecidableEq

/-- Stable insertion step for sorting edits in descending offset order. -/
def insDesc (e : TextEdit) : List TextEdit → List TextEdit
  | [] => [e]
  | x :: xs => if e.offset ≤ x.offset then x :: insDesc e xs else e :: x :: xs

/-- Stable sort by descending offset
(Rust `edits.sort_by(|a, b| b.offset.cmp(&a.offset))`). -/
def sortDescByOffset : List TextEdit → List TextEdit
  | [] => []
  | e :: es => insDesc e (sortDescByOffset es)

/-- Port of `compute_wikilink_rename_edits`: for every occurrence whose
basename (last `/`-separated segment of the trimmed name) equals `old_name`
case-insensitively, emit an edit at
`name_start + (name byte length - basename byte length)` removing
`basename byte length` bytes and inserting `new_name`; sort descending. -/
def compute_wikilink_rename_edits (markdown old_name new_name : Str) :
    List TextEdit :=
  sortDescByOffset
    ((extract_wikilink_occurrences markdown).filterMap
      (fun occ =>
        if toLowerStr (lastSlashSeg occ.name) ≠ toLowerStr old_name then none
        else
          some ⟨occ.name_start + (utf8Len occ.name - utf8Len (lastSlashSeg occ.name)),
            utf8Len (lastSlashSeg occ.name), new_name⟩))

/-- One text edit applied at byte offsets
(`String::replace_range(offset..offset + remove_len, insert)`, and equally the
`remove_range` / `insert` pair applied to the text buffer). -/
def applyEdit (s : Str) (e : TextEdit) : Str :=
  takeBytes s e.offset ++ e.insert_text ++ dropBytes s (e.offset + e.remove_len)

/-- Sequential application of an edit list in the order returned. -/
def applyEdits (s : Str) (edits : List TextEdit) : Str :=
  edits.foldl applyEdit s

/-- C3 failing input: on `[[ Foo]]` (leading space inside the wikilink) the
planner anchors the edit at the untrimmed span start but computes the basename
offset against the trimmed name, so the single edit sits at byte 2 instead of
byte 3 and applying it corrupts the text to `[[Baro]]` instead of rewriting
the basename span to give `[[ Bar]]`. -/
theorem c3_rename_edit_bug :
    compute_wikilink_rename_edits ("[[ Foo]]".data) ("Foo".data) ("Bar".data) =
      [⟨2, 3, "Bar".data⟩] ∧
    applyEdits ("[[ Foo]]".data)
        (compute_wikilink_rename_edits ("[[ Foo]]".data) ("Foo".data) ("Bar".data)) =
      ("[[Baro]]".data) ∧
    ("[[Baro]]".data) ≠ ("[[ Bar]]".data) := by
  refine ⟨by rfl, by rfl, by decide⟩

-- ---------------------------------------------------------------------------
-- MCP move_document tool (src/crates/relay/src/mcp/tools/move_doc.rs lines
-- 8-96, with the filemeta mutation of link_indexer.rs move_document steps 1-2;
-- the content-text rewriting and re-indexing of the later move steps need the
-- content documents' text and are outside this state model)
-- ---------------------------------------------------------------------------

/-- Resolver entry (doc_resolver.rs `DocInfo`). -/
structure DocInfo where
  uuid : Str
  relay_id : Str
  folder_doc_id : Str
  folder_name : Str
  doc_id : Str
deriving DecidableEq

/-- Server state visible to the tool: the document map (folder docs carry a
filemeta map, content docs none) and the resolver's path map. -/
structure ServerState where
  docs : List (Str × FolderDoc)
  resolver : List (Str × DocInfo)
deriving DecidableEq

/-- Byte-wise string comparison (Rust `String` ordering). -/
def strLtB : Str → Str → Bool
  | [], [] => false
  | [], _ :: _ => true
  | _ :: _, [] => false
  | a :: s1, b :: s2 =>
    if a.val < b.val then true else if b.val < a.val then false else strLtB s1 s2

/-- Insertion step of `sortStr`. -/
def insSorted (x : Str) : List Str → List Str
  | [] => [x]
  | y :: ys => if strLtB y x then y :: insSorted x ys else x :: y :: ys

/-- Rust `Vec::sort` on strings. -/
def sortStr (l : List Str) : List Str := l.foldr insSorted []

/-- Port of `find_all_folder_docs`: ids of docs with a non-empty `filemeta_v0`
map, sorted. -/
def find_all_folder_docs (docs : List (Str × FolderDoc)) : List Str :=
  sortStr
    ((docs.filter
      (fun p =>
        match p.2.filemeta with
        | some l => decide (l ≠ [])
        | none => false)).map Prod.fst)

/-- Port of `read_folder_name` (doc_resolver.rs): `folder_config.name` when
present and non-empty, otherwise a placeholder derived from the folder doc id's
uuid part. -/
def read_folder_name (doc : FolderDoc) (folder_doc_id : Str) : Str :=
  match doc.folder_config_name with
  | some name =>
    if name ≠ [] then name else read_folder_name_fallback folder_doc_id
  | none => read_folder_name_fallback folder_doc_id
where
  read_folder_name_fallback (folder_doc_id : Str) : Str :=
    let folder_uuid :=
      match parse_doc_id folder_doc_id with
      | some r => r.2
      | none => folder_doc_id
    if 8 ≤ utf8Len folder_uuid then
      ('F' :: 'o' :: 'l' :: 'd' :: 'e' :: 'r' :: '-' :: []) ++ takeBytes folder_uuid 8
    else "Unknown Folder".data

/-- Port of `DocumentResolver::resolve_path`: exact lookup, then with `.md`
appended when the path does not already end in `.md`. -/
def resolve_path (resolver : List (Str × DocInfo)) (path : Str) : Option DocInfo :=
  match aGet resolver path with
  | some info => some info
  | none =>
    if ('.' :: 'm' :: 'd' :: []).isSuffixOf path then none
    else aGet resolver (path ++ '.' :: 'm' :: 'd' :: [])

/-- Rust `[String]::join(sep)` with a string separator. -/
def joinStrs (sep : Str) : List Str → Str
  | [] => []
  | [s] => s
  | s :: rest => s ++ sep ++ joinStrs sep rest

/-- Arguments of the `move_document` tool call. -/
structure MoveArgs where
  file_path : Option Str
  new_path : Option Str
  target_folder : Option Str
deriving DecidableEq

/-- Success payload (from `MoveResult`; the rewritten-links count depends on
content documents outside this state model). -/
structure MoveSummary where
  old_path : Str
  new_path : Str
  old_folder_name : Str
  new_folder_name : Str
deriving DecidableEq

/-- Step 2 of `execute`: `(folder_doc_id, displayable name)` pairs for every
folder doc id that is present in the doc map. -/
def folderNamesOf (docs : List (Str × FolderDoc)) : List (Str × Str) :=
  (find_all_folder_docs docs).filterMap
    (fun fid =>
      match aGet docs fid with
      | some d => some (fid, read_folder_name d fid)
      | none => none)

/-- Step 3 of `execute`: determine the target folder doc id — an exact match
on the displayable name when `target_folder` is given, the source folder
otherwise. -/
def targetFolderId (folderNames : List (Str × Str)) (tf : Option Str)
    (source_folder_doc_id : Str) : Except Str Str :=
  match tf with
  | some t =>
    match folderNames.find? (fun p => p.2 == t) with
    | some p => .ok p.1
    | none =>
      .error ("Unknown target folder: ".data ++ t ++ ". Available: ".data ++
        joinStrs (", ".data) (folderNames.map Prod.snd))
  | none => .ok source_folder_doc_id

/-- Filemeta mutation of `move_document` (link_indexer.rs steps 1-2): locate
the uuid's entry in the source folder, remove the old path and insert the new
path (in the target folder for a cross-folder move). -/
def moveFilemeta (uuid new_path : Str) (srcId tgtId : Str)
    (docs : List (Str × FolderDoc)) : Except Str (List (Str × FolderDoc) × Str) :=
  match aGet docs srcId with
  | none => .error ("Source folder doc not in folder list".data)
  | some srcDoc =>
    match srcDoc.filemeta with
    | none => .error ("source folder doc has no filemeta_v0".data)
    | some fm =>
      match fm.find? (fun pv => pv.2.id == some uuid) with
      | none =>
        .error (('U' :: 'U' :: 'I' :: 'D' :: ' ' :: []) ++ uuid ++
          " not found in source filemeta_v0".data)
      | some pv =>
        if srcId = tgtId then
          .ok (aInsert docs srcId
            { srcDoc with filemeta := some (aInsert (aRemove fm pv.1) new_path pv.2) },
            pv.1)
        else
          match aGet docs tgtId with
          | none => .error ("Target folder doc not loaded".data)
          | some tgtDoc =>
            .ok (aInsert
              (aInsert docs srcId { srcDoc with filemeta := some (aRemove fm pv.1) })
              tgtId
              { tgtDoc with
                filemeta := some (aInsert (tgtDoc.filemeta.getD []) new_path pv.2) },
              pv.1)

/-- Port of `execute` for the `move_document` tool (move_doc.rs lines 8-96):
argument extraction, path-shape validation, path resolution, folder
enumeration, target-folder determination, conflict check, and then the
filemeta move.  Every check before the move only reads state, so all error
returns leave the state unchanged. -/
def mcp_move_document (st : ServerState) (args : MoveArgs) :
    ServerState × Except Str MoveSummary :=
  match args.file_path with
  | none => (st, .error ("Missing required parameter: file_path".data))
  | some file_path =>
  match args.new_path with
  | none => (st, .error ("Missing required parameter: new_path".data))
  | some new_path =>
  if ¬ (new_path.head? = some '/') then
    (st, .error ("new_path must start with \x27/\x27 and end with \x27.md\x27".data))
  else if ¬ (('.' :: 'm' :: 'd' :: []).isSuffixOf new_path) then
    (st, .error ("new_path must start with \x27/\x27 and end with \x27.md\x27".data))
  else
  match resolve_path st.resolver file_path with
  | none => (st, .error ("Document not found: ".data ++ file_path))
  | some doc_info =>
  if find_all_folder_docs st.docs = [] then
    (st, .error ("No folder documents found".data))
  else
  match targetFolderId (folderNamesOf st.docs) args.target_folder
      doc_info.folder_doc_id with
  | .error e => (st, .error e)
  | .ok target_folder_doc_id =>
  match aGet st.docs target_folder_doc_id with
  | none => (st, .error ("Target folder doc not loaded".data))
  | some tgtDoc =>
  if (match tgtDoc.filemeta with
      | some fm => (aGet fm new_path).isSome
      | none => false) then
    (st, .error (('P' :: 'a' :: 't' :: 'h' :: ' ' :: '\x27' :: []) ++ new_path ++
      "\x27 already exists in target folder".data))
  else
  if ¬ (doc_info.folder_doc_id ∈ find_all_folder_docs st.docs) then
    (st, .error ("Source folder doc not in folder list".data))
  else
  match moveFilemeta doc_info.uuid new_path doc_info.folder_doc_id
      target_folder_doc_id st.docs with
  | .error e => (st, .error e)
  | .ok r =>
    ({ st with docs := r.1 },
     .ok ⟨r.2, new_path,
       read_folder_name (match aGet st.docs doc_info.folder_doc_id with
         | some d => d
         | none => tgtDoc) doc_info.folder_doc_id,
       read_folder_name tgtDoc target_folder_doc_id⟩)

-- ---------------------------------------------------------------------------
-- C9
-- ---------------------------------------------------------------------------

/-- C9 counterexample: with an unresolvable `file_path` and an unknown
`target_folder`, the tool reports the not-found error, not the
unknown-target-folder error — resolution is checked before the target folder,
so the claim's unconditional "unknown target folder ⇒ unknown-target-folder
error" fails. -/
theorem c9_counterexample :
    (mcp_move_document
        ⟨[(("F1".data),
           ⟨some [(("/A.md".data), ⟨some ("u1".data), some ("markdown".data)⟩)],
            some ("Lens".data), []⟩)], []⟩
        ⟨some ("/x.md".data), some ("/y.md".data), some ("Nope".data)⟩).2 =
      .error ("Document not found: /x.md".data) ∧
    (folderNamesOf
        [(("F1".data),
          ⟨some [(("/A.md".data), ⟨some ("u1".data), some ("markdown".data)⟩)],
           some ("Lens".data), []⟩)]).map Prod.snd = [("Lens".data)] ∧
    ("Document not found: /x.md".data) ≠
      ("Unknown target folder: Nope. Available: Lens".data) := by
  refine ⟨by rfl, by rfl, by decide⟩

/-- C9 (amended): in the tool's check order — argument presence, `new_path`
shape, `file_path` resolution, folder enumeration, target-folder match,
conflict — each failing check returns its error with the server state
unchanged, before any filemeta mutation: (1) whenever `new_path` is present
but does not start with `/` or does not end with `.md`, the result is an
invalid-input error (a missing-parameter or path-shape message) and the state
is unchanged; (2) whenever the earlier checks pass and `target_folder` is
given but matches no folder's displayable name exactly, the result is the
unknown-target-folder error and the state is unchanged; (3) whenever the
earlier checks pass and `new_path` already exists as a filemeta key in the
target folder, the result is the conflict error and the state is unchanged.
(The original claim's parts (2) and (3) without the earlier-checks proviso are
refuted by `c9_counterexample`.) -/
theorem c9_mcp_move_document (st : ServerState) (args : MoveArgs) :
    (∀ np, args.new_path = some np →
      (¬ (np.head? = some '/') ∨ ¬ (('.' :: 'm' :: 'd' :: []).isSuffixOf np)) →
      (mcp_move_document st args).1 = st ∧
      (∃ e, (mcp_move_document st args).2 = .error e ∧
        (e = ("Missing required parameter: file_path".data) ∨
         e = ("new_path must start with \x27/\x27 and end with \x27.md\x27".data)))) ∧
    (∀ fp np t info, args = ⟨some fp, some np, some t⟩ →
      np.head? = some '/' → (('.' :: 'm' :: 'd' :: []).isSuffixOf np) →
      resolve_path st.resolver fp = some info →
      find_all_folder_docs st.docs ≠ [] →
      (folderNamesOf st.docs).find? (fun p => p.2 == t) = none →
      mcp_move_document st args =
        (st, .error ("Unknown target folder: ".data ++ t ++ ". Available: ".data ++
          joinStrs (", ".data) ((folderNamesOf st.docs).map Prod.snd)))) ∧
    (∀ fp np info tid tgtDoc fm, args.file_path = some fp → args.new_path = some np →
      np.head? = some '/' → (('.' :: 'm' :: 'd' :: []).isSuffixOf np) →
      resolve_path st.resolver fp = some info →
      find_all_folder_docs st.docs ≠ [] →
      targetFolderId (folderNamesOf st.docs) args.target_folder info.folder_doc_id =
        .ok tid →
      aGet st.docs tid = some tgtDoc →
      tgtDoc.filemeta = some fm →
      (aGet fm np).isSome →
      mcp_move_document st args =
        (st, .error (('P' :: 'a' :: 't' :: 'h' :: ' ' :: '\x27' :: []) ++ np ++
          ("\x27 already exists in target folder".data)))) := by
  refine ⟨?_, ?_, ?_⟩
  · intro np hnp hbad
    rcases args with ⟨fp0, np0, tf0⟩
    simp only at hnp
    subst hnp
    cases fp0 with
    | none => exact ⟨rfl, ⟨_, rfl, Or.inl rfl⟩⟩
    | some fp =>
      by_cases h1 : np.head? = some '/'
      · rcases hbad with hb | hb
        · exact absurd h1 hb
        · refine ⟨?_, ⟨_, ?_, Or.inr rfl⟩⟩
          · show (mcp_move_document _ _).1 = st
            unfold mcp_move_document
            dsimp only
            rw [if_neg (not_not_intro h1), if_pos hb]
          · show (mcp_move_document _ _).2 = _
            unfold mcp_move_document
            dsimp only
            rw [if_neg (not_not_intro h1), if_pos hb]
      · refine ⟨?_, ⟨_, ?_, Or.inr rfl⟩⟩
        · show (mcp_move_document _ _).1 = st
          unfold mcp_move_document
          dsimp only
          rw [if_pos h1]
        · show (mcp_move_document _ _).2 = _
          unfold mcp_move_document
          dsimp only
          rw [if_pos h1]
  · intro fp np t info hargs hsl hsuf hres hff hfind
    subst hargs
    unfold mcp_move_document
    dsimp only
    rw [if_neg (not_not_intro hsl), if_neg (not_not_intro hsuf), hres]
    dsimp only
    rw [if_neg hff]
    unfold targetFolderId
    dsimp only
    rw [hfind]
  · intro fp np info tid tgtDoc fm hfp hnp hsl hsuf hres hff htid htgt hfm hconf
    rcases args with ⟨fp0, np0, tf0⟩
    simp only at hfp hnp
    subst hfp
    subst hnp
    dsimp only at htid
    unfold mcp_move_document
    dsimp only
    rw [if_neg (not_not_intro hsl), if_neg (not_not_intro hsuf), hres]
    dsimp only
    rw [if_neg hff, htid]
    dsimp only
    rw [htgt]
    dsimp only
    rw [hfm]
    dsimp only
    rw [if_pos hconf]

/-- C9 witness: moving `Lens/A.md` onto the occupied path `/B.md` in folder
`Lens` yields the conflict error and leaves the state unchanged. -/
theorem c9_witness :
    mcp_move_document
        ⟨[(("F1".data),
           ⟨some [(("/A.md".data), ⟨some ("u1".data), some ("markdown".data)⟩),
                  (("/B.md".data), ⟨some ("u2".data), some ("markdown".data)⟩)],
            some ("Lens".data), []⟩)],
         [(("Lens/A.md".data),
           ⟨"u1".data, "R".data, "F1".data, "Lens".data, "R-u1".data⟩)]⟩
        ⟨some ("Lens/A.md".data), some ("/B.md".data), some ("Lens".data)⟩ =
      (⟨[(("F1".data),
           ⟨some [(("/A.md".data), ⟨some ("u1".data), some ("markdown".data)⟩),
                  (("/B.md".data), ⟨some ("u2".data), some ("markdown".data)⟩)],
            some ("Lens".data), []⟩)],
         [(("Lens/A.md".data),
           ⟨"u1".data, "R".data, "F1".data, "Lens".data, "R-u1".data⟩)]⟩,
       .error (('P' :: 'a' :: 't' :: 'h' :: ' ' :: '\x27' :: []) ++ ("/B.md".data) ++
         ("\x27 already exists in target folder".data))) := by
  exact (c9_mcp_move_document _ _).2.2 ("Lens/A.md".data) ("/B.md".data)
    (⟨"u1".data, "R".data, "F1".data, "Lens".data, "R-u1".data⟩) ("F1".data)
    (⟨some [(("/A.md".data), ⟨some ("u1".data), some ("markdown".data)⟩),
            (("/B.md".data), ⟨some ("u2".data), some ("markdown".data)⟩)],
      some ("Lens".data), []⟩)
    ([(("/A.md".data), ⟨some ("u1".data), some ("markdown".data)⟩),
      (("/B.md".data), ⟨some ("u2".data), some ("markdown".data)⟩)])
    rfl rfl (by decide) (by decide) (by rfl) (by decide) (by rfl) (by rfl) (by rfl)
    (by decide)
